import Mathlib

/-!
Verification of the mononote local-persistence and data-aggregation layer.

The repository stores three entities (notes, transactions, settings) as JSON
text under three localStorage keys (`src/services/storageService.ts`, found in
`src/constants.ts` of the source tree) and computes ledger statistics in
`LedgerView` (`src/views/SettingsView.tsx`).

Modelling conventions:
* localStorage is a record of three `Option (List Char)` cells (a stored value
  is a string of characters; `none` is an absent key).
* `JSON.parse` / `JSON.stringify` are embedded as executable functions over a
  `Json` tree.  JSON numbers are modelled as integers (the grammar subset
  without fractions/exponents); documents containing fractional numbers are
  outside the model.  Object properties are kept in insertion order, with
  duplicate keys collapsed to the last value as in JavaScript; JavaScript's
  special enumeration order for integer-like keys is outside the model (no key
  produced by this application is integer-like).
* JavaScript numbers in the ledger layer are modelled as exact rationals.
-/

namespace MonoNote

/-- JSON whitespace characters (the four allowed by the JSON grammar, which is
what `JSON.parse` skips and `JSON.stringify(_, null, 2)` emits). -/
def isWs (c : Char) : Bool :=
  c = ' ' || c = '\n' || c = '\t' || c = '\r'

/-- Drop leading JSON whitespace. -/
def skipWs : List Char → List Char
  | [] => []
  | c :: cs => if isWs c then skipWs cs else c :: cs

/-- The character for a decimal digit value. -/
def digChar (n : Nat) : Char := Char.ofNat (48 + n)

/-- The decimal digit value of a character. -/
def digVal (c : Char) : Nat := c.toNat - 48

/-- Decimal digits of `n`, least significant first; `fuel` bounds recursion
depth (any `fuel ≥ n` is enough). -/
def natDigitsRev : Nat → Nat → List Char
  | 0, _ => []
  | _ + 1, 0 => []
  | fuel + 1, n + 1 => digChar ((n + 1) % 10) :: natDigitsRev fuel ((n + 1) / 10)

/-- Decimal rendering of a natural number, as JavaScript prints integers. -/
def natChars (n : Nat) : List Char :=
  if n = 0 then ['0'] else (natDigitsRev n n).reverse

/-- Decimal rendering of an integer, as JavaScript prints integral numbers. -/
def intChars : Int → List Char
  | .ofNat n => natChars n
  | .negSucc n => '-' :: natChars (n + 1)

/-- Hexadecimal digit character (lower case, as `JSON.stringify` emits in
`\u00XX` escapes). -/
def hexChar (n : Nat) : Char :=
  if n < 10 then digChar n else Char.ofNat (87 + n)

/- JSON values.  `str` keys/contents are character lists; `num` is the
integer-numeral subset of JSON numbers.  `arr`/`obj` use a mutual inductive
(rather than nested `List`) so that every function below is structurally
recursive and reduces inside the kernel. -/
mutual
inductive Json where
  | null
  | bool (b : Bool)
  | num (n : Int)
  | str (s : List Char)
  | arr (elems : JArr)
  | obj (fields : JObj)
  deriving DecidableEq
inductive JArr where
  | nil
  | cons (hd : Json) (tl : JArr)
  deriving DecidableEq
inductive JObj where
  | nil
  | cons (key : List Char) (val : Json) (tl : JObj)
  deriving DecidableEq
end

/-- The elements of a JSON array as a plain list. -/
def JArr.toList : JArr → List Json
  | .nil => []
  | .cons e es => e :: es.toList

/-- The fields of a JSON object as a plain association list. -/
def JObj.toList : JObj → List (List Char × Json)
  | .nil => []
  | .cons k v fs => (k, v) :: fs.toList

/-- The keys of a JSON object, in enumeration order. -/
def JObj.keys : JObj → List (List Char)
  | .nil => []
  | .cons k _ fs => k :: fs.keys

/-- Look a key up in a JSON object (JavaScript property read on a plain
parsed object). -/
def JObj.lookup : JObj → List Char → Option Json
  | .nil, _ => none
  | .cons k v fs, key => if k = key then some v else fs.lookup key

/-- Escape one character the way `JSON.stringify` does inside string
literals: `"` and `\` get a backslash, the five named control characters use
their short escapes, other control characters use `\u00XX`, and everything
else (including non-ASCII) is emitted verbatim. -/
def escChar (c : Char) : List Char :=
  if c = '"' then ['\\', '"']
  else if c = '\\' then ['\\', '\\']
  else if c = '\x08' then ['\\', 'b']
  else if c = '\t' then ['\\', 't']
  else if c = '\n' then ['\\', 'n']
  else if c = '\x0c' then ['\\', 'f']
  else if c = '\r' then ['\\', 'r']
  else if c.toNat < 32 then
    ['\\', 'u', '0', '0', hexChar (c.toNat / 16), hexChar (c.toNat % 16)]
  else [c]

/-- Escape a whole string body. -/
def escStr : List Char → List Char
  | [] => []
  | c :: cs => escChar c ++ escStr cs

/-- Render a JSON string literal including the surrounding quotes. -/
def serStr (s : List Char) : List Char :=
  '"' :: (escStr s ++ ['"'])

/- Serialization of JSON values, covering both `JSON.stringify(v)`
(`pretty = false`) and `JSON.stringify(v, null, 2)` (`pretty = true`, two-space
indent per level; `ind` is the current indentation).  Mirrors the ECMAScript
serialization algorithm on the modelled subset. -/
mutual
def serV (pretty : Bool) (ind : List Char) : Json → List Char
  | .null => "null".data
  | .bool true => "true".data
  | .bool false => "false".data
  | .num n => intChars n
  | .str s => serStr s
  | .arr .nil => ['[', ']']
  | .arr (.cons e es) =>
    if pretty then
      '[' :: '\n' :: (ind ++ [' ', ' ']) ++
        serV pretty (ind ++ [' ', ' ']) e ++
        serItems pretty (ind ++ [' ', ' ']) es ++
        '\n' :: ind ++ [']']
    else
      '[' :: serV pretty ind e ++ serItems pretty ind es ++ [']']
  | .obj .nil => ['{', '}']
  | .obj (.cons k v fs) =>
    if pretty then
      '{' :: '\n' :: (ind ++ [' ', ' ']) ++
        serStr k ++ ':' :: ' ' :: serV pretty (ind ++ [' ', ' ']) v ++
        serMembers pretty (ind ++ [' ', ' ']) fs ++
        '\n' :: ind ++ ['}']
    else
      '{' :: serStr k ++ ':' :: serV pretty ind v ++ serMembers pretty ind fs ++ ['}']

def serItems (pretty : Bool) (ind : List Char) : JArr → List Char
  | .nil => []
  | .cons e es =>
    if pretty then
      ',' :: '\n' :: ind ++ serV pretty ind e ++ serItems pretty ind es
    else
      ',' :: serV pretty ind e ++ serItems pretty ind es

def serMembers (pretty : Bool) (ind : List Char) : JObj → List Char
  | .nil => []
  | .cons k v fs =>
    if pretty then
      ',' :: '\n' :: ind ++ serStr k ++ ':' :: ' ' :: serV pretty ind v ++
        serMembers pretty ind fs
    else
      ',' :: serStr k ++ ':' :: serV pretty ind v ++ serMembers pretty ind fs
end

/-- `JSON.stringify(v)`. -/
def stringifyC (j : Json) : List Char := serV false [] j

/-- `JSON.stringify(v, null, 2)`. -/
def stringifyP (j : Json) : List Char := serV true [] j

/-- Match a literal keyword tail, returning the rest of the input. -/
def expectLit : List Char → List Char → Option (List Char)
  | [], s => some s
  | _ :: _, [] => none
  | c :: cs, d :: ds => if c = d then expectLit cs ds else none

/-- Split off a maximal run of decimal digits. -/
def takeDigits : List Char → List Char × List Char
  | [] => ([], [])
  | c :: cs =>
    if c.isDigit then
      let p := takeDigits cs
      (c :: p.1, p.2)
    else ([], c :: cs)

/-- Numeric value of a big-endian digit run. -/
def digitsVal (ds : List Char) : Nat :=
  ds.foldl (fun a c => 10 * a + digVal c) 0

/-- Parse a JSON natural-number numeral (non-empty digit run, no leading
zero except for `0` itself). -/
def pNat (s : List Char) : Option (Nat × List Char) :=
  match takeDigits s with
  | ([], _) => none
  | (d :: ds, rest) =>
    if d = '0' && ds ≠ [] then none
    else some (digitsVal (d :: ds), rest)

/-- Value of a hexadecimal digit character. -/
def hexVal (c : Char) : Option Nat :=
  if c ≤ '9' && '0' ≤ c then some (c.toNat - '0'.toNat)
  else if c ≤ 'f' && 'a' ≤ c then some (c.toNat - 'a'.toNat + 10)
  else if c ≤ 'F' && 'A' ≤ c then some (c.toNat - 'A'.toNat + 10)
  else none

/-- The character denoted by a single-character JSON escape. -/
def escTarget (e : Char) : Option Char :=
  if e = '"' then some '"'
  else if e = '\\' then some '\\'
  else if e = '/' then some '/'
  else if e = 'b' then some '\x08'
  else if e = 't' then some '\t'
  else if e = 'n' then some '\n'
  else if e = 'f' then some '\x0c'
  else if e = 'r' then some '\r'
  else none

/-- Parse a JSON string body (everything after the opening quote), up to and
including the closing quote.  `fuel` bounds recursion (input length + 1 is
always enough). -/
def pStrBody : Nat → List Char → Option (List Char × List Char)
  | 0, _ => none
  | _ + 1, [] => none
  | fuel + 1, c :: cs =>
    if c = '"' then some ([], cs)
    else if c = '\\' then
      match cs with
      | [] => none
      | e :: cs1 =>
        if e = 'u' then
          match cs1 with
          | h1 :: h2 :: h3 :: h4 :: cs2 =>
            match hexVal h1, hexVal h2, hexVal h3, hexVal h4 with
            | some a, some b, some c2, some d =>
              (pStrBody fuel cs2).map
                (fun p => (Char.ofNat (((a * 16 + b) * 16 + c2) * 16 + d) :: p.1, p.2))
            | _, _, _, _ => none
          | _ => none
        else
          match escTarget e with
          | some t => (pStrBody fuel cs1).map (fun p => (t :: p.1, p.2))
          | none => none
    else if c.toNat < 32 then none
    else (pStrBody fuel cs).map (fun p => (c :: p.1, p.2))

/-- Add a field to a JSON object under construction: an existing key keeps its
position and receives the new value (JavaScript property redefinition), a new
key is appended at the end. -/
def upsert : JObj → List Char → Json → JObj
  | .nil, k, v => .cons k v .nil
  | .cons k1 v1 fs, k, v =>
    if k1 = k then .cons k1 v fs else .cons k1 v1 (upsert fs k v)

/- Recursive-descent JSON parser (`JSON.parse` on the modelled subset).
`fuel` bounds the mutual recursion depth; values never consume trailing
whitespace, and every entry point skips leading whitespace. -/
mutual
def pVal : Nat → List Char → Option (Json × List Char)
  | 0, _ => none
  | fuel + 1, s =>
    match skipWs s with
    | [] => none
    | c :: cs =>
      if c = 'n' then (expectLit ['u', 'l', 'l'] cs).map (fun r => (Json.null, r))
      else if c = 't' then (expectLit ['r', 'u', 'e'] cs).map (fun r => (Json.bool true, r))
      else if c = 'f' then (expectLit ['a', 'l', 's', 'e'] cs).map (fun r => (Json.bool false, r))
      else if c = '"' then (pStrBody (cs.length + 1) cs).map (fun p => (Json.str p.1, p.2))
      else if c = '-' then (pNat cs).map (fun p => (Json.num (-(p.1 : Int)), p.2))
      else if c.isDigit then (pNat (c :: cs)).map (fun p => (Json.num (p.1 : Int), p.2))
      else if c = '[' then
        match skipWs cs with
        | ']' :: r => some (Json.arr .nil, r)
        | _ => (pItems fuel cs).map (fun p => (Json.arr p.1, p.2))
      else if c = '{' then
        match skipWs cs with
        | '}' :: r => some (Json.obj .nil, r)
        | _ => pMembers fuel cs .nil
      else none

def pItems : Nat → List Char → Option (JArr × List Char)
  | 0, _ => none
  | fuel + 1, s =>
    match pVal fuel s with
    | none => none
    | some (j, r) =>
      match skipWs r with
      | ',' :: r1 =>
        match pItems fuel r1 with
        | none => none
        | some (es, r2) => some (.cons j es, r2)
      | ']' :: r1 => some (.cons j .nil, r1)
      | _ => none

def pMembers : Nat → List Char → JObj → Option (Json × List Char)
  | 0, _, _ => none
  | fuel + 1, s, acc =>
    match skipWs s with
    | '"' :: cs =>
      match pStrBody (cs.length + 1) cs with
      | none => none
      | some (k, r1) =>
        match skipWs r1 with
        | ':' :: r2 =>
          match pVal fuel r2 with
          | none => none
          | some (v, r3) =>
            match skipWs r3 with
            | ',' :: r4 => pMembers fuel r4 (upsert acc k v)
            | '}' :: r4 => some (Json.obj (upsert acc k v), r4)
            | _ => none
        | _ => none
    | _ => none
end

/-- `JSON.parse` over a character list: parse one value, then require only
whitespace to remain.  `none` models a thrown `SyntaxError`. -/
def parseJson (s : List Char) : Option Json :=
  match pVal (s.length + 1) s with
  | some (j, r) => if skipWs r = [] then some j else none
  | none => none

/-- Whether a JSON object has a field with the given key. -/
def JObj.hasKey : JObj → List Char → Bool
  | .nil, _ => false
  | .cons k _ fs, key => k = key || fs.hasKey key

/-- Concatenation of JSON object field lists. -/
def JObj.append : JObj → JObj → JObj
  | .nil, gs => gs
  | .cons k v fs, gs => .cons k v (fs.append gs)

/- An upper bound on the parser fuel consumed along any call chain while
parsing a serialization of the value. -/
mutual
def jfuel : Json → Nat
  | .null | .bool _ | .num _ | .str _ => 1
  | .arr es => 1 + afuel es
  | .obj fs => 1 + ofuel fs
def afuel : JArr → Nat
  | .nil => 1
  | .cons e es => 1 + max (jfuel e) (afuel es)
def ofuel : JObj → Nat
  | .nil => 1
  | .cons _ v fs => 1 + max (jfuel v) (ofuel fs)
end

/- Well-formed JSON values: every object has pairwise distinct keys.  Values
produced by `JSON.parse` are well-formed (duplicate keys collapse), and only
well-formed values serialize to text that parses back to the same value. -/
mutual
def wfV : Json → Bool
  | .null | .bool _ | .num _ | .str _ => true
  | .arr es => wfA es
  | .obj fs => wfO fs
def wfA : JArr → Bool
  | .nil => true
  | .cons e es => wfV e && wfA es
def wfO : JObj → Bool
  | .nil => true
  | .cons k v fs => !fs.hasKey k && wfV v && wfO fs
end

/-- All characters of a list are JSON whitespace. -/
def AllWs (l : List Char) : Prop := ∀ c ∈ l, isWs c = true

/-- The list does not start with a decimal digit (so a numeral followed by it
cannot absorb extra characters). -/
def NoDigitStart : List Char → Prop
  | [] => True
  | c :: _ => c.isDigit = false

/-! ## Storage layer (`storageService` in `src/services/storageService.ts`)

localStorage is modelled as three cells, one per key in `KEYS`
(`mononote_notes`, `mononote_transactions`, `mononote_settings`); a cell holds
`none` when the key is absent, otherwise the stored string. -/

structure Store where
  notes : Option (List Char)
  transactions : Option (List Char)
  settings : Option (List Char)
  deriving DecidableEq

/-- `DEFAULT_NOTE_CATEGORIES` from `src/constants.ts`. -/
def DEFAULT_NOTE_CATEGORIES : List String := ["生活", "工作", "灵感", "待办"]

/-- `DEFAULT_LEDGER_CATEGORIES` from `src/constants.ts`. -/
def DEFAULT_LEDGER_CATEGORIES : List String := ["餐饮", "交通", "购物", "工资", "娱乐", "其他"]

/-- `DEFAULT_QUOTE` from `src/constants.ts`. -/
def DEFAULT_QUOTE : String := "保持简单，记录当下。"

/-- A JSON array of strings. -/
def jStrArr (l : List String) : JArr :=
  l.foldr (fun s a => .cons (.str s.data) a) .nil

/-- The fields of the hard-coded default settings object literal
`\x7b headerQuote, noteCategories, ledgerCategories \x7d`, in source order. -/
def defaultSettingsFields : JObj :=
  .cons "headerQuote".data (.str DEFAULT_QUOTE.data)
    (.cons "noteCategories".data (.arr (jStrArr DEFAULT_NOTE_CATEGORIES))
      (.cons "ledgerCategories".data (.arr (jStrArr DEFAULT_LEDGER_CATEGORIES)) .nil))

/-- The hard-coded default settings value. -/
def defaultSettings : Json := .obj defaultSettingsFields

/-- The own enumerable properties contributed by spreading a value `x` in an
object literal `\x7b ...base, ...x \x7d`: an object spreads its fields, a string
spreads its characters under the keys "0", "1", …, an array its elements
likewise, and primitives spread nothing.  (JavaScript would enumerate such
integer-like keys first; that reordering is outside the model and no settings
document produced by this application has integer-like keys.) -/
def spreadFields : Json → List (List Char × Json)
  | .obj fs => fs.toList
  | .str s => spreadIdx 0 (s.map (fun c => Json.str [c]))
  | .arr es => spreadIdx 0 es.toList
  | _ => []
where
  spreadIdx (i : Nat) : List Json → List (List Char × Json)
    | [] => []
    | v :: vs => (natChars i, v) :: spreadIdx (i + 1) vs

/-- The object literal `\x7b ...currentDefaults, ...x \x7d`: start from the
default fields, then add/overwrite each field spread from `x`. -/
def mergedSettings (x : Json) : Json :=
  .obj ((spreadFields x).foldl (fun acc kv => upsert acc kv.1 kv.2) defaultSettingsFields)

/-- `storageService.getNotes`: `data ? JSON.parse(data) : []` inside
`try/catch` returning `[]`; an absent key (`getItem` returns `null`) and the
empty string are both falsy. -/
def getNotes (st : Store) : Json :=
  match st.notes with
  | none => .arr .nil
  | some s =>
    if s = [] then .arr .nil
    else
      match parseJson s with
      | some j => j
      | none => .arr .nil

/-- `storageService.getTransactions`: same shape as `getNotes`. -/
def getTransactions (st : Store) : Json :=
  match st.transactions with
  | none => .arr .nil
  | some s =>
    if s = [] then .arr .nil
    else
      match parseJson s with
      | some j => j
      | none => .arr .nil

/-- `storageService.getSettings`: `if (data) return JSON.parse(data);` inside
`try` — a parseable stored value is returned as-is (no merging with defaults);
the default record is returned when the key is absent, empty, or fails to
parse. -/
def getSettings (st : Store) : Json :=
  match st.settings with
  | none => defaultSettings
  | some s =>
    if s = [] then defaultSettings
    else
      match parseJson s with
      | some j => j
      | none => defaultSettings

/-- The raw entity read in `storageService.exportData` for notes and
transactions: `str ? JSON.parse(str) : []` with no surrounding `try`, so a
parse failure propagates as an exception (`Except.error`). -/
def readEntityRaw : Option (List Char) → Except Unit Json
  | none => .ok (.arr .nil)
  | some s =>
    if s = [] then .ok (.arr .nil)
    else
      match parseJson s with
      | some j => .ok j
      | none => .error ()

/-- The settings value assembled by `storageService.exportData`: defaults,
overridden by `\x7b ...settings, ...parsedSettings \x7d` when the stored string
parses; the parse attempt alone is wrapped in `try/catch`. -/
def exportSettings (st : Store) : Json :=
  match st.settings with
  | none => defaultSettings
  | some s =>
    if s = [] then defaultSettings
    else
      match parseJson s with
      | some j => mergedSettings j
      | none => defaultSettings

/-- `storageService.exportData`: read the three keys directly from the store,
build `\x7b notes, transactions, settings, exportDate, version \x7d` and render
it with `JSON.stringify(data, null, 2)`.  `dateStr` stands for
`new Date().toISOString()`. -/
def exportData (st : Store) (dateStr : List Char) : Except Unit (List Char) := do
  let notes ← readEntityRaw st.notes
  let transactions ← readEntityRaw st.transactions
  let settings := exportSettings st
  let data : Json := .obj
    (.cons "notes".data notes
      (.cons "transactions".data transactions
        (.cons "settings".data settings
          (.cons "exportDate".data (.str dateStr)
            (.cons "version".data (.str "1.0".data) .nil)))))
  return stringifyP data

/-- JavaScript property read `data.k` on a non-`null` parsed value: a field of
an object, `undefined` (`none`) otherwise. -/
def getField : Json → List Char → Option Json
  | .obj fs, k => fs.lookup k
  | _, _ => none

/-- JavaScript truthiness of a parsed JSON value. -/
def truthy : Json → Bool
  | .null => false
  | .bool b => b
  | .num n => n != 0
  | .str s => s != []
  | .arr _ => true
  | .obj _ => true

/-- Truthiness of a possibly-`undefined` property. -/
def truthyOpt : Option Json → Bool
  | none => false
  | some j => truthy j

/-- `Array.isArray` on a possibly-`undefined` property. -/
def isArr : Option Json → Bool
  | some (.arr _) => true
  | _ => false

/-- `storageService.importData`: parse the text (failure → `false`); reading
`data.notes` on a `null` document throws (→ `false`); throw (→ `false`) when
neither `notes` nor `transactions` is an array; otherwise write each of
`notes` / `transactions` that is truthy as `JSON.stringify` of its value,
write `settings` merged over the defaults when truthy, and return `true`. -/
def importData (text : List Char) (st : Store) : Bool × Store :=
  match parseJson text with
  | none => (false, st)
  | some .null => (false, st)
  | some data =>
    let n := getField data "notes".data
    let t := getField data "transactions".data
    if !isArr n && !isArr t then (false, st)
    else
      let st1 :=
        match n with
        | some jn => if truthy jn then { st with notes := some (stringifyC jn) } else st
        | none => st
      let st2 :=
        match t with
        | some jt => if truthy jt then { st1 with transactions := some (stringifyC jt) } else st1
        | none => st1
      let st3 :=
        match getField data "settings".data with
        | some js =>
          if truthy js then { st2 with settings := some (stringifyC (mergedSettings js)) }
          else st2
        | none => st2
      (true, st3)

/-! ## Ledger layer (`LedgerView` in `src/views/SettingsView.tsx`)

JavaScript numbers are modelled as exact rationals; transaction lists whose
amounts are finite numbers are in the model (`NaN` amounts are handled
separately at the save-handler boundary, see `handleSave`). -/

inductive TransactionType where
  | income
  | expense
  deriving DecidableEq

/-- The `Transaction` record from `src/types.ts`. -/
structure Transaction where
  id : String
  amount : ℚ
  type : TransactionType
  category : String
  description : String
  date : String
  timestamp : Int
  deriving DecidableEq

/-- `INCOME_COLORS` from `src/views/SettingsView.tsx`. -/
def INCOME_COLORS : List String := ["#10b981", "#3b82f6", "#06b6d4", "#8b5cf6"]

/-- `EXPENSE_COLORS` from `src/views/SettingsView.tsx`. -/
def EXPENSE_COLORS : List String := ["#ef4444", "#f59e0b", "#ec4899", "#f43f5e", "#6366f1"]

/-- The result record of the `summary` memo. -/
structure Summary where
  income : ℚ
  expense : ℚ
  total : ℚ
  deriving DecidableEq

/-- The `summary` memo: one pass over all transactions adding `amount` to
`income` when `type === 'income'` and to `expense` otherwise;
`total = income - expense`. -/
def summary (ts : List Transaction) : Summary :=
  let p := ts.foldl
    (fun (p : ℚ × ℚ) t =>
      match t.type with
      | .income => (p.1 + t.amount, p.2)
      | .expense => (p.1, p.2 + t.amount))
    (0, 0)
  ⟨p.1, p.2, p.1 - p.2⟩

/-- The string `'income'` / `'expense'` used in the grouping key. -/
def typeName : TransactionType → String
  | .income => "income"
  | .expense => "expense"

/-- The grouping key `` `${t.type}-${t.category}` ``. -/
def mkKey (t : Transaction) : String :=
  typeName t.type ++ "-" ++ t.category

/-- JavaScript `String.prototype.split` with a single-character separator. -/
def jsSplit (sep : Char) (s : String) : List String :=
  (splitAux s.data []).map (fun l => ⟨l⟩)
where
  splitAux : List Char → List Char → List (List Char)
    | [], cur => [cur.reverse]
    | c :: cs, cur =>
      if c = sep then cur.reverse :: splitAux cs [] else splitAux cs (c :: cur)

/-- `key.split('-')[1]`, the breakdown entry name extraction in `dailyStats`. -/
def nameOfKey (key : String) : String :=
  (jsSplit '-' key).getD 1 ""

/-- One `categoryMap` entry: key, accumulated value, and the type recorded on
first encounter. -/
structure MapEntry where
  key : String
  value : ℚ
  type : TransactionType
  deriving DecidableEq

/-- Add an amount to `categoryMap` under a key: an absent key is appended with
an initial value of `0` (recording the type), then the amount is added to the
entry.  Insertion order is preserved (the keys are never integer-like, so
JavaScript enumerates them in insertion order). -/
def addToMap : List MapEntry → String → ℚ → TransactionType → List MapEntry
  | [], k, a, ty => [⟨k, a, ty⟩]
  | e :: rest, k, a, ty =>
    if e.key = k then ⟨e.key, e.value + a, e.type⟩ :: rest
    else e :: addToMap rest k a ty

/-- A breakdown (pie chart) entry produced by `dailyStats`. -/
structure PieEntry where
  name : String
  value : ℚ
  type : TransactionType
  color : String
  deriving DecidableEq

/-- The `Object.entries(categoryMap).map(...)` pass: convert entries in
enumeration order, drawing colors from `INCOME_COLORS` / `EXPENSE_COLORS` with
two running indices taken modulo the palette lengths. -/
def assignColors : List MapEntry → Nat → Nat → List PieEntry
  | [], _, _ => []
  | e :: rest, ii, ei =>
    match e.type with
    | .income =>
      ⟨nameOfKey e.key, e.value, e.type, (INCOME_COLORS.getD (ii % INCOME_COLORS.length) "")⟩ ::
        assignColors rest (ii + 1) ei
    | .expense =>
      ⟨nameOfKey e.key, e.value, e.type, (EXPENSE_COLORS.getD (ei % EXPENSE_COLORS.length) "")⟩ ::
        assignColors rest ii (ei + 1)

/-- The result record of the `dailyStats` memo. -/
structure DailyStats where
  income : ℚ
  expense : ℚ
  totalVolume : ℚ
  pieData : List PieEntry
  dayTransactions : List Transaction
  deriving DecidableEq

/-- The `categoryMap` accumulated over a transaction list (the day's
transactions), exposed for specification purposes: `dailyStats` builds exactly
this map. -/
def categoryMapOf (l : List Transaction) : List MapEntry :=
  l.foldl (fun m t => addToMap m (mkKey t) t.amount t.type) []

/-- Sum of the amounts of the transactions in `l` whose grouping key is `k`. -/
def keySum (k : String) (l : List Transaction) : ℚ :=
  ((l.filter (fun t => mkKey t = k)).map (fun t => t.amount)).sum

/-- Invariant of the `categoryMap` accumulation: after processing the
transactions `pre`, the map has pairwise distinct keys, each entry carries the
sum of the amounts with its key together with the type of a transaction that
produced the key, and every processed transaction has an entry for its key. -/
def MapInv (pre : List Transaction) (m : List MapEntry) : Prop :=
  (m.map (fun e => e.key)).Nodup ∧
  (∀ e ∈ m, e.value = keySum e.key pre ∧ ∃ t ∈ pre, mkKey t = e.key ∧ t.type = e.type) ∧
  (∀ t ∈ pre, ∃ e ∈ m, e.key = mkKey t)

/-- Sum of the amounts of the income transactions in `l`. -/
def incomeSum (l : List Transaction) : ℚ :=
  ((l.filter (fun t => t.type = .income)).map (fun t => t.amount)).sum

/-- Sum of the amounts of the expense transactions in `l`. -/
def expenseSum (l : List Transaction) : ℚ :=
  ((l.filter (fun t => t.type = .expense)).map (fun t => t.amount)).sum

/-- The day's transaction list built by `dailyStats`: filter to the selected
date, then sort by timestamp descending. -/
def dayTransactionsOf (ts : List Transaction) (statsDate : String) : List Transaction :=
  List.insertionSort (fun a b => b.timestamp ≤ a.timestamp)
    (ts.filter (fun t => t.date = statsDate))

/-- The three-transaction example from the specification (§8), with concrete
categories and timestamps. -/
def exampleTs : List Transaction :=
  [⟨"a", 100, .income, "工资", "", "2024-01-01", 3⟩,
   ⟨"b", 40, .expense, "餐饮", "", "2024-01-01", 2⟩,
   ⟨"c", 10, .expense, "交通", "", "2024-01-02", 1⟩]

/-- The `dailyStats` memo: filter to the selected date, sort by timestamp
descending (comparator `b.timestamp - a.timestamp`), accumulate the day's
income/expense totals and the `categoryMap` in one pass, set
`totalVolume = income + expense`, convert the map to colored entries and sort
them by value descending (comparator `b.value - a.value`).

ECMAScript `Array.prototype.sort` is required to be stable, and a stable sort
is uniquely determined by the preorder its comparator induces, so stable
insertion sort is extensionally the code's sort; the relation `r a b` stands
for "comparator(a, b) ≤ 0". -/
def dailyStats (ts : List Transaction) (statsDate : String) : DailyStats :=
  let dayT := dayTransactionsOf ts statsDate
  let acc := dayT.foldl
    (fun (a : ℚ × ℚ × List MapEntry) t =>
      let totals : ℚ × ℚ :=
        match t.type with
        | .income => (a.1 + t.amount, a.2.1)
        | .expense => (a.1, a.2.1 + t.amount)
      (totals.1, totals.2, addToMap a.2.2 (mkKey t) t.amount t.type))
    (0, 0, [])
  let pieData := List.insertionSort (fun a b => b.value ≤ a.value) (assignColors acc.2.2 0 0)
  ⟨acc.1, acc.2.1, acc.1 + acc.2.1, pieData, dayT⟩

/-- JavaScript `parseFloat` on the modelled subset: optional leading
whitespace and sign, then decimal digits and/or a decimal point with digits
(the longest valid prefix; trailing garbage is ignored).  `none` models `NaN`;
exponent notation and `Infinity` are outside the model. -/
def jsParseFloat (s : String) : Option ℚ :=
  let l := skipWs s.data
  let (sgn, l1) : ℚ × List Char :=
    match l with
    | '-' :: rest => (-1, rest)
    | '+' :: rest => (1, rest)
    | _ => (1, l)
  let (ds, l2) := takeDigits l1
  let fs : List Char :=
    match l2 with
    | '.' :: rest => (takeDigits rest).1
    | _ => []
  if ds = [] && fs = [] then none
  else some (sgn * ((digitsVal ds : ℚ) + (digitsVal fs : ℚ) / ((10 : ℚ) ^ fs.length)))

/-- JavaScript `String.prototype.trim` (drop whitespace at both ends; the
JSON whitespace class approximates the ECMAScript one, which also covers some
rarer Unicode space code points). -/
def jsTrim (s : String) : String :=
  ⟨((s.data.dropWhile isWs).reverse.dropWhile isWs).reverse⟩

/-- The validation guard of `LedgerView.handleSave`:
`!amount || parseFloat(amount) <= 0`.  A `NaN` comparison is false, so a
non-empty string that `parseFloat` cannot parse is NOT rejected. -/
def saveRejected (amount : String) : Bool :=
  amount = "" ||
    (match jsParseFloat amount with
     | some q => decide (q ≤ 0)
     | none => false)

/-- Outcome of `LedgerView.handleSave`. -/
inductive SaveOutcome where
  | rejected
  | savedNaN
  | saved (l : List Transaction)
  deriving DecidableEq

/-- `LedgerView.handleSave` as a function of the form state and the previous
transaction list.  `rejected` models the `alert` branch (the list is left
unchanged); `savedNaN` models the branch where the guard passes although
`parseFloat(amount)` is `NaN` — the code then stores a transaction whose
amount is `NaN`, which has no rational representation; `saved l` is the new
list otherwise.  `desc.trim() || category` defaults a blank description to the
category. -/
def handleSave (amount desc : String) (ty : TransactionType) (category date : String)
    (editingId : Option String) (newId : String) (now : Int)
    (prev : List Transaction) : SaveOutcome :=
  if saveRejected amount then .rejected
  else
    match jsParseFloat amount with
    | none => .savedNaN
    | some q =>
      let description := if jsTrim desc = "" then category else jsTrim desc
      match editingId with
      | some eid =>
        .saved (prev.map (fun t =>
          if t.id = eid then
            { t with amount := q, description := description, type := ty,
                     category := category, date := date }
          else t))
      | none =>
        .saved (⟨newId, q, ty, category, description, date, now⟩ :: prev)

/-! ## Aggregation-engine lemmas -/

theorem summary_foldl (l : List Transaction) (p : ℚ × ℚ) :
    l.foldl
      (fun (p : ℚ × ℚ) t =>
        match t.type with
        | .income => (p.1 + t.amount, p.2)
        | .expense => (p.1, p.2 + t.amount))
      p = (p.1 + incomeSum l, p.2 + expenseSum l) := by
  induction l generalizing p with
  | nil => simp [incomeSum, expenseSum]
  | cons t l ih =>
    cases h : t.type <;>
      simp [h, ih, incomeSum, expenseSum, List.filter_cons, add_assoc]

theorem summary_spec (ts : List Transaction) :
    summary ts = ⟨incomeSum ts, expenseSum ts, incomeSum ts - expenseSum ts⟩ := by
  simp only [summary, summary_foldl]
  simp

theorem dailyStats_foldl (l : List Transaction) (a : ℚ × ℚ × List MapEntry) :
    l.foldl
      (fun (a : ℚ × ℚ × List MapEntry) t =>
        let totals : ℚ × ℚ :=
          match t.type with
          | .income => (a.1 + t.amount, a.2.1)
          | .expense => (a.1, a.2.1 + t.amount)
        (totals.1, totals.2, addToMap a.2.2 (mkKey t) t.amount t.type))
      a =
      (a.1 + incomeSum l, a.2.1 + expenseSum l,
        l.foldl (fun m t => addToMap m (mkKey t) t.amount t.type) a.2.2) := by
  induction l generalizing a with
  | nil => simp [incomeSum, expenseSum]
  | cons t l ih =>
    cases h : t.type <;>
      simp [h, ih, incomeSum, expenseSum, List.filter_cons, add_assoc]

theorem dailyStats_eq (ts : List Transaction) (d : String) :
    dailyStats ts d =
      ⟨incomeSum (dayTransactionsOf ts d), expenseSum (dayTransactionsOf ts d),
        incomeSum (dayTransactionsOf ts d) + expenseSum (dayTransactionsOf ts d),
        List.insertionSort (fun a b => b.value ≤ a.value)
          (assignColors (categoryMapOf (dayTransactionsOf ts d)) 0 0),
        dayTransactionsOf ts d⟩ := by
  simp only [dailyStats, dailyStats_foldl]
  simp [categoryMapOf]

theorem incomeSum_perm {l1 l2 : List Transaction} (h : l1.Perm l2) :
    incomeSum l1 = incomeSum l2 :=
  List.Perm.sum_eq (List.Perm.map _ (List.Perm.filter _ h))

theorem expenseSum_perm {l1 l2 : List Transaction} (h : l1.Perm l2) :
    expenseSum l1 = expenseSum l2 :=
  List.Perm.sum_eq (List.Perm.map _ (List.Perm.filter _ h))

theorem dayTransactionsOf_perm (ts : List Transaction) (d : String) :
    (dayTransactionsOf ts d).Perm (ts.filter (fun t => t.date = d)) :=
  List.perm_insertionSort _ _

theorem dayTransactionsOf_sorted (ts : List Transaction) (d : String) :
    List.Pairwise (fun a b : Transaction => b.timestamp ≤ a.timestamp)
      (dayTransactionsOf ts d) := by
  haveI : IsTotal Transaction (fun a b => b.timestamp ≤ a.timestamp) :=
    ⟨fun a b => le_total b.timestamp a.timestamp⟩
  haveI : IsTrans Transaction (fun a b => b.timestamp ≤ a.timestamp) :=
    ⟨fun _ _ _ hab hbc => le_trans hbc hab⟩
  exact List.sorted_insertionSort _ _

/-- C9: `summary` computes total income as the sum of income amounts, total
expense as the sum of expense amounts, and `total` as their difference; it
yields all zeros on `[]` and income 100 / expense 50 / total 50 on the
specification's three-transaction example. -/
theorem C9_summary_totals :
    (∀ ts : List Transaction,
      (summary ts).income = incomeSum ts ∧
      (summary ts).expense = expenseSum ts ∧
      (summary ts).total = incomeSum ts - expenseSum ts) ∧
    summary [] = ⟨0, 0, 0⟩ ∧
    (summary exampleTs).income = 100 ∧
    (summary exampleTs).expense = 50 ∧
    (summary exampleTs).total = 50 := by
  refine ⟨fun ts => by rw [summary_spec]; exact ⟨rfl, rfl, rfl⟩, ?_, ?_, ?_, ?_⟩ <;>
    norm_num [summary, exampleTs]

/-- C7: `dailyStats` keeps exactly the transactions dated on the given day
(its `dayTransactions` is the date-filtered list, sorted descending by
timestamp), computes the day's income/expense totals over that filtered set,
sets `totalVolume` to income plus expense, and on the specification's example
for "2024-01-01" yields income 100, expense 40, totalVolume 140 and two
breakdown entries. -/
theorem C7_dailyStats_day :
    (∀ (ts : List Transaction) (d : String),
      ((dailyStats ts d).dayTransactions).Perm (ts.filter (fun t => t.date = d)) ∧
      List.Pairwise (fun a b : Transaction => b.timestamp ≤ a.timestamp)
        (dailyStats ts d).dayTransactions ∧
      (dailyStats ts d).income = incomeSum (ts.filter (fun t => t.date = d)) ∧
      (dailyStats ts d).expense = expenseSum (ts.filter (fun t => t.date = d)) ∧
      (dailyStats ts d).totalVolume = (dailyStats ts d).income + (dailyStats ts d).expense) ∧
    (dailyStats exampleTs "2024-01-01").income = 100 ∧
    (dailyStats exampleTs "2024-01-01").expense = 40 ∧
    (dailyStats exampleTs "2024-01-01").totalVolume = 140 ∧
    (dailyStats exampleTs "2024-01-01").pieData.length = 2 := by
  refine ⟨fun ts d => ?_, ?_, ?_, ?_, ?_⟩
  · rw [dailyStats_eq]
    refine ⟨dayTransactionsOf_perm ts d, dayTransactionsOf_sorted ts d, ?_, ?_, rfl⟩
    · exact incomeSum_perm (dayTransactionsOf_perm ts d)
    · exact expenseSum_perm (dayTransactionsOf_perm ts d)
  all_goals
    norm_num [dailyStats, dayTransactionsOf, exampleTs, addToMap, mkKey, assignColors,
      nameOfKey, typeName]

theorem splitAux_head (sep : Char) (l : List Char) : ∀ cur : List Char,
    (jsSplit.splitAux sep l cur).head? =
      some (cur.reverse ++ l.takeWhile (fun c => c ≠ sep)) := by
  induction l with
  | nil => intro cur; simp [jsSplit.splitAux]
  | cons c cs ih =>
    intro cur
    by_cases h : c = sep
    · simp [jsSplit.splitAux, h]
    · simp [jsSplit.splitAux, h, ih]

theorem nameOfKey_mkKey (ty : TransactionType) (cat : String) :
    nameOfKey (typeName ty ++ "-" ++ cat) =
      ⟨cat.data.takeWhile (fun c => c ≠ '-')⟩ := by
  have h1 := splitAux_head '-' cat.data []
  obtain ⟨hd, tl, heq⟩ : ∃ hd tl, jsSplit.splitAux '-' cat.data [] = hd :: tl := by
    cases hsplit : jsSplit.splitAux '-' cat.data [] with
    | nil => rw [hsplit] at h1; simp at h1
    | cons hd tl => exact ⟨hd, tl, rfl⟩
  rw [heq] at h1
  simp only [List.head?_cons, Option.some.injEq, List.reverse_nil, List.nil_append] at h1
  cases ty <;>
    simp [nameOfKey, jsSplit, typeName, String.data_append, jsSplit.splitAux, heq, h1]

/-- C10: in `dailyStats`, a breakdown entry name is `key.split('-')[1]` of the
grouping key `` `${type}-${category}` ``; since the type names contain no
hyphen, the name is the category's prefix before its first hyphen, and equals
the category exactly when the category contains no hyphen. -/
theorem C10_breakdown_name_split :
    ∀ t : Transaction,
      nameOfKey (mkKey t) = ⟨t.category.data.takeWhile (fun c => c ≠ '-')⟩ ∧
      (nameOfKey (mkKey t) = t.category ↔ '-' ∉ t.category.data) := by
  intro t
  have hname : nameOfKey (mkKey t) = ⟨t.category.data.takeWhile (fun c => c ≠ '-')⟩ :=
    nameOfKey_mkKey t.type t.category
  refine ⟨hname, ?_⟩
  rw [hname]
  constructor
  · intro h hmem
    have hdata : t.category.data.takeWhile (fun c => c ≠ '-') = t.category.data := by
      have := congrArg String.data h
      simpa using this
    have := List.takeWhile_eq_self_iff.mp hdata '-' hmem
    simp at this
  · intro h
    have hdata : t.category.data.takeWhile (fun c => c ≠ '-') = t.category.data :=
      List.takeWhile_eq_self_iff.mpr (fun x hx => by
        simp only [ne_eq, decide_eq_true_eq]
        intro hxeq
        exact h (hxeq ▸ hx))
    rw [hdata]

/-! ## Save-handler claims (C6) -/

/-- C6 counterexample: the amount string `"abc"` denotes no number
(`parseFloat` yields `NaN`, modelled as `none`), yet `handleSave` does not
reject the submission — `NaN <= 0` is false in JavaScript, so the guard
passes and a transaction with amount `NaN` is created. -/
theorem C6_counterexample :
    jsParseFloat "abc" = none ∧
    saveRejected "abc" = false ∧
    handleSave "abc" "" .expense "餐饮" "2024-01-01" none "id1" 0 [] = .savedNaN := by
  refine ⟨?_, ?_, ?_⟩ <;> decide

theorem jsParseFloat_empty : jsParseFloat "" = none := by decide

theorem saveRejected_iff (amount : String) :
    saveRejected amount = true ↔
      amount = "" ∨ ∃ q, jsParseFloat amount = some q ∧ q ≤ 0 := by
  unfold saveRejected
  cases hq : jsParseFloat amount <;> simp [hq]

theorem handleSave_rejected_iff
    (amount desc : String) (ty : TransactionType) (category date : String)
    (editingId : Option String) (newId : String) (now : Int) (prev : List Transaction) :
    handleSave amount desc ty category date editingId newId now prev = .rejected ↔
      saveRejected amount = true := by
  unfold handleSave
  by_cases h : saveRejected amount
  · simp [h]
  · simp only [h]
    simp only [Bool.false_eq_true, if_false]
    cases hq : jsParseFloat amount with
    | none => simp [h]
    | some q => cases editingId <;> simp [h]

/-- C6 amended: the handler rejects exactly when the amount string is empty
or `parseFloat` yields a number `≤ 0`; a non-empty amount that `parseFloat`
cannot parse is accepted and stores a `NaN` amount (violating `amount > 0`),
and whenever the stored amount is a number it is positive — a new transaction
is prepended, an edited one is updated in place, with the blank description
defaulting to the category. -/
theorem C6_handleSave_guard
    (amount desc : String) (ty : TransactionType) (category date : String)
    (editingId : Option String) (newId : String) (now : Int) (prev : List Transaction) :
    (handleSave amount desc ty category date editingId newId now prev = .rejected ↔
      amount = "" ∨ ∃ q, jsParseFloat amount = some q ∧ q ≤ 0) ∧
    (jsParseFloat amount = none → amount ≠ "" →
      handleSave amount desc ty category date editingId newId now prev = .savedNaN) ∧
    (∀ q, jsParseFloat amount = some q → 0 < q → editingId = none →
      handleSave amount desc ty category date editingId newId now prev =
        .saved (⟨newId, q, ty, category,
          if jsTrim desc = "" then category else jsTrim desc, date, now⟩ :: prev)) ∧
    (∀ q eid, jsParseFloat amount = some q → 0 < q → editingId = some eid →
      handleSave amount desc ty category date editingId newId now prev =
        .saved (prev.map (fun t =>
          if t.id = eid then
            { t with amount := q,
                     description := if jsTrim desc = "" then category else jsTrim desc,
                     type := ty, category := category, date := date }
          else t))) ∧
    (∀ q l, jsParseFloat amount = some q →
      handleSave amount desc ty category date editingId newId now prev = .saved l →
      0 < q) := by
  have hne : ∀ q : ℚ, jsParseFloat amount = some q → amount ≠ "" := by
    intro q hq h
    rw [h, jsParseFloat_empty] at hq
    exact Option.noConfusion hq
  refine ⟨(handleSave_rejected_iff _ _ _ _ _ _ _ _ _).trans (saveRejected_iff _), ?_, ?_, ?_, ?_⟩
  · intro hq hemp
    simp [handleSave, saveRejected, hemp, hq]
  · intro q hq hpos heid
    simp [handleSave, saveRejected, hne q hq, hq, not_le.mpr hpos, heid]
  · intro q eid hq hpos heid
    simp [handleSave, saveRejected, hne q hq, hq, not_le.mpr hpos, heid]
  · intro q l hq h
    by_cases hr : saveRejected amount
    · simp [handleSave, hr] at h
    · have : ¬ saveRejected amount = true := hr
      rw [saveRejected_iff] at this
      push_neg at this
      exact this.2 q hq

/-- C6 witness: with amount `"5"` a positive transaction is created, and with
an empty amount the submission is rejected. -/
theorem C6_handleSave_guard_witness :
    handleSave "5" "花费" .expense "餐饮" "2024-01-01" none "id1" 7 [] =
      .saved [⟨"id1", 5, .expense, "餐饮", "花费", "2024-01-01", 7⟩] ∧
    handleSave "" "" .expense "餐饮" "2024-01-01" none "id1" 7 [] = .rejected := by
  have hq : jsParseFloat "5" = some 5 := by
    have h1 : skipWs "5".data = ['5'] := by decide
    have h2 : takeDigits ['5'] = (['5'], []) := by decide
    have h3 : digitsVal ['5'] = 5 := by decide
    have h4 : digitsVal [] = 0 := by decide
    simp [jsParseFloat, h1, h2, h3, h4]
  constructor
  · have h := (C6_handleSave_guard "5" "花费" .expense "餐饮" "2024-01-01" none
      "id1" 7 []).2.2.1 5 hq (by norm_num) rfl
    rw [h]
    have ht : jsTrim "花费" = "花费" := by decide
    simp [ht]
  · exact (C6_handleSave_guard "" "" .expense "餐饮" "2024-01-01" none
      "id1" 7 []).1.mpr (Or.inl rfl)

/-! ## Storage read claims (C4, C1) -/

theorem parseJson_nil : parseJson [] = none := by decide

/-- C4: the get operations are total (they are functions into `Json`, never
exceptions) and recover every degenerate stored state: an absent key or a
value that fails to parse yields `[]` for notes/transactions and the
default-populated settings record for settings. -/
theorem C4_get_total_recovery :
    (∀ st : Store, st.notes = none → getNotes st = .arr .nil) ∧
    (∀ (st : Store) (s : List Char), st.notes = some s → parseJson s = none →
      getNotes st = .arr .nil) ∧
    (∀ st : Store, st.transactions = none → getTransactions st = .arr .nil) ∧
    (∀ (st : Store) (s : List Char), st.transactions = some s → parseJson s = none →
      getTransactions st = .arr .nil) ∧
    (∀ st : Store, st.settings = none → getSettings st = defaultSettings) ∧
    (∀ (st : Store) (s : List Char), st.settings = some s → parseJson s = none →
      getSettings st = defaultSettings) := by
  refine ⟨fun st h => by simp [getNotes, h], fun st s h hp => ?_,
    fun st h => by simp [getTransactions, h], fun st s h hp => ?_,
    fun st h => by simp [getSettings, h], fun st s h hp => ?_⟩ <;>
  · by_cases hnil : s = [] <;>
      simp [getNotes, getTransactions, getSettings, h, hnil, hp]

/-- C4 witness: concrete absent and unparseable stored values. -/
theorem C4_get_total_recovery_witness :
    getNotes ⟨none, none, none⟩ = .arr .nil ∧
    getNotes ⟨some ['x'], none, none⟩ = .arr .nil ∧
    getTransactions ⟨none, some ['{'], none⟩ = .arr .nil ∧
    getSettings ⟨none, none, some ['x']⟩ = defaultSettings := by
  refine ⟨C4_get_total_recovery.1 _ rfl,
    C4_get_total_recovery.2.1 _ ['x'] rfl (by decide),
    C4_get_total_recovery.2.2.2.1 _ ['{'] rfl (by decide),
    C4_get_total_recovery.2.2.2.2.2 _ ['x'] rfl (by decide)⟩

/-- C1 counterexample: a stored settings document containing only
`headerQuote` is returned by `getSettings` exactly as stored — the
`noteCategories` field is missing from the result, while the defaults do
carry it.  `getSettings` performs no merge with the defaults. -/
theorem C1_counterexample :
    getSettings ⟨none, none,
      some (stringifyC (Json.obj (.cons "headerQuote".data (.str "x".data) .nil)))⟩ =
      Json.obj (.cons "headerQuote".data (.str "x".data) .nil) ∧
    getField
      (getSettings ⟨none, none,
        some (stringifyC (Json.obj (.cons "headerQuote".data (.str "x".data) .nil)))⟩)
      "noteCategories".data = none ∧
    getField defaultSettings "noteCategories".data =
      some (.arr (jStrArr DEFAULT_NOTE_CATEGORIES)) := by
  refine ⟨?_, ?_, ?_⟩ <;> decide

/-- C1 amended: `getSettings` returns the parsed stored document unchanged
(no field-by-field merge over the defaults), so a partially-specified stored
document keeps its absent fields missing; the full default record is used
only when the key is absent, empty, or fails to parse. -/
theorem C1_getSettings_no_merge (st : Store) (s : List Char) (j : Json)
    (hs : st.settings = some s) (hp : parseJson s = some j) :
    getSettings st = j := by
  have hne : s ≠ [] := by
    rintro rfl
    rw [parseJson_nil] at hp
    exact Option.noConfusion hp
  simp [getSettings, hs, hne, hp]

/-- C1 witness: the amended theorem applied to the partially-specified stored
document. -/
theorem C1_getSettings_no_merge_witness :
    getSettings ⟨none, none,
      some (stringifyC (Json.obj (.cons "headerQuote".data (.str "x".data) .nil)))⟩ =
      Json.obj (.cons "headerQuote".data (.str "x".data) .nil) :=
  C1_getSettings_no_merge _ _ _ rfl (by decide)

/-! ## Export claims (C5) -/

/-- C5 counterexample: with an unparseable notes value stored, `exportData`
throws (the `JSON.parse` calls for notes and transactions are not wrapped in
`try/catch`), instead of substituting an empty collection. -/
theorem C5_counterexample :
    exportData ⟨some ['x'], none, none⟩ "2024-01-01T00:00:00.000Z".data = .error () := by
  rfl

/-- C5 amended: `exportData` returns the export document whenever the stored
notes and transactions values are readable (absent, empty, or parseable) — a
read-time parse failure of the settings value alone is recovered locally by
substituting the defaults, exactly as if the key were absent.  A parse failure
of notes or transactions, however, propagates as an exception. -/
theorem C5_export_recovery (st : Store) (d : List Char)
    (jn jt : Json)
    (hn : readEntityRaw st.notes = .ok jn) (ht : readEntityRaw st.transactions = .ok jt) :
    (∃ out, exportData st d = .ok out) ∧
    (∀ s, st.settings = some s → parseJson s = none →
      exportData st d = exportData ⟨st.notes, st.transactions, none⟩ d) := by
  constructor
  · exact ⟨_, by rw [exportData, hn, ht]; rfl⟩
  · intro s hs hp
    have hset : exportSettings st = exportSettings ⟨st.notes, st.transactions, none⟩ := by
      by_cases hnil : s = [] <;> simp [exportSettings, hs, hnil, hp]
    rw [exportData, exportData]
    simp only [hset]

/-- C5 witness: a store with empty/absent notes and transactions and a
corrupt settings value exports successfully, as if settings were absent. -/
theorem C5_export_recovery_witness :
    (∃ out, exportData ⟨none, some ['[', ']'], some ['x']⟩ "d".data = .ok out) ∧
    exportData ⟨none, some ['[', ']'], some ['x']⟩ "d".data =
      exportData ⟨none, some ['[', ']'], none⟩ "d".data := by
  have h := C5_export_recovery ⟨none, some ['[', ']'], some ['x']⟩ "d".data
    (.arr .nil) (.arr .nil) rfl (by rfl)
  exact ⟨h.1, h.2 ['x'] rfl (by decide)⟩

/-! ## Import claims (C2) -/

/-- C2 counterexample: a parseable document whose `transactions` field is
present (with value `0`) imports successfully but leaves the stored
Transactions key untouched — the write is guarded by truthiness, not
presence. -/
theorem C2_counterexample :
    importData
      (stringifyC (Json.obj (.cons "notes".data (.arr .nil)
        (.cons "transactions".data (.num 0) .nil))))
      ⟨none, some ['x'], none⟩ =
      (true, ⟨some ['[', ']'], some ['x'], none⟩) ∧
    parseJson
      (stringifyC (Json.obj (.cons "notes".data (.arr .nil)
        (.cons "transactions".data (.num 0) .nil)))) =
      some (Json.obj (.cons "notes".data (.arr .nil)
        (.cons "transactions".data (.num 0) .nil))) ∧
    getField
      (Json.obj (.cons "notes".data (.arr .nil)
        (.cons "transactions".data (.num 0) .nil)))
      "transactions".data = some (.num 0) := by
  refine ⟨?_, ?_, ?_⟩ <;> decide

/-- C2 amended: `importData` fails exactly when the text does not parse or
the parsed document has neither `notes` nor `transactions` typed as an array
(a `null` document also fails: the property reads throw); on failure the
store is untouched.  On success the Notes/Transactions/Settings keys are
overwritten for whichever of those fields are present AND truthy (so `0`,
`""`, `false` or `null` fields are skipped even though present), with
settings written as the document's settings fields merged over the hard-coded
defaults. -/
theorem C2_import_validation (text : List Char) (st : Store) :
    ((importData text st).1 = false ↔
      parseJson text = none ∨
        ∃ d, parseJson text = some d ∧
          isArr (getField d "notes".data) = false ∧
          isArr (getField d "transactions".data) = false) ∧
    ((importData text st).1 = false → (importData text st).2 = st) ∧
    (∀ d, parseJson text = some d →
      isArr (getField d "notes".data) = true ∨
        isArr (getField d "transactions".data) = true →
      importData text st =
        (true,
          { notes :=
              match getField d "notes".data with
              | some jn => if truthy jn then some (stringifyC jn) else st.notes
              | none => st.notes,
            transactions :=
              match getField d "transactions".data with
              | some jt => if truthy jt then some (stringifyC jt) else st.transactions
              | none => st.transactions,
            settings :=
              match getField d "settings".data with
              | some js => if truthy js then some (stringifyC (mergedSettings js)) else st.settings
              | none => st.settings })) := by
  cases hp : parseJson text with
  | none =>
    refine ⟨?_, ?_, ?_⟩
    · simp [importData, hp]
    · intro _; simp [importData, hp]
    · intro d hd; exact absurd hd (by simp)
  | some d =>
    cases d with
    | obj fs =>
      by_cases hn : isArr (getField (Json.obj fs) "notes".data) = true
      case pos =>
        have hcond :
            (!isArr (getField (Json.obj fs) "notes".data) &&
              !isArr (getField (Json.obj fs) "transactions".data)) = false := by
          simp [hn]
        refine ⟨?_, ?_, ?_⟩
        · constructor
          · intro h
            simp only [importData, hp, hcond] at h
            simp at h
          · rintro (h | ⟨d', hd', h1, h2⟩)
            · exact Option.noConfusion h
            · injection hd' with hd'
              rw [← hd'] at h1
              rw [hn] at h1
              exact Bool.noConfusion h1
        · intro h
          simp only [importData, hp, hcond] at h
          simp at h
        · intro d' hd' _
          injection hd' with hd'
          subst hd'
          simp only [importData, hp, hcond]
          simp only [Bool.false_eq_true, if_false]
          cases hgn : getField (Json.obj fs) "notes".data with
          | none => rw [hgn] at hn; exact Bool.noConfusion hn
          | some jn =>
            cases hgt : getField (Json.obj fs) "transactions".data <;>
              cases hgs : getField (Json.obj fs) "settings".data <;>
                simp only [getField] at hgn hgt hgs <;>
                  simp [getField, hgn, hgt, hgs] <;>
                    (repeat' split) <;> simp_all
      case neg =>
        by_cases ht : isArr (getField (Json.obj fs) "transactions".data) = true
        case pos =>
          have hcond :
              (!isArr (getField (Json.obj fs) "notes".data) &&
                !isArr (getField (Json.obj fs) "transactions".data)) = false := by
            simp [ht]
          refine ⟨?_, ?_, ?_⟩
          · constructor
            · intro h
              simp only [importData, hp, hcond] at h
              simp at h
            · rintro (h | ⟨d', hd', h1, h2⟩)
              · exact Option.noConfusion h
              · injection hd' with hd'
                rw [← hd'] at h2
                rw [ht] at h2
                exact Bool.noConfusion h2
          · intro h
            simp only [importData, hp, hcond] at h
            simp at h
          · intro d' hd' _
            injection hd' with hd'
            subst hd'
            simp only [importData, hp, hcond]
            simp only [Bool.false_eq_true, if_false]
            cases hgn : getField (Json.obj fs) "notes".data <;>
              cases hgt : getField (Json.obj fs) "transactions".data <;>
                cases hgs : getField (Json.obj fs) "settings".data <;>
                  simp only [getField] at hgn hgt hgs <;>
                    simp [getField, hgn, hgt, hgs] <;>
                      (repeat' split) <;> simp_all
        case neg =>
          have hcond :
              (!isArr (getField (Json.obj fs) "notes".data) &&
                !isArr (getField (Json.obj fs) "transactions".data)) = true := by
            simp only [Bool.and_eq_true, Bool.not_eq_true']
            exact ⟨Bool.not_eq_true _ ▸ (Bool.eq_false_iff.mpr hn),
              Bool.not_eq_true _ ▸ (Bool.eq_false_iff.mpr ht)⟩
          refine ⟨?_, ?_, ?_⟩
          · constructor
            · intro _
              exact Or.inr ⟨Json.obj fs, rfl, Bool.eq_false_iff.mpr hn, Bool.eq_false_iff.mpr ht⟩
            · intro _
              simp [importData, hp, hcond]
          · intro _
            simp [importData, hp, hcond]
          · intro d' hd' hok
            injection hd' with hd'
            subst hd'
            rcases hok with h | h
            · exact absurd h hn
            · exact absurd h ht
    | null =>
      refine ⟨?_, ?_, ?_⟩
      · constructor
        · intro _
          exact Or.inr ⟨Json.null, rfl, rfl, rfl⟩
        · intro _
          simp [importData, hp]
      · intro _
        simp [importData, hp]
      · intro d' hd' hok
        injection hd' with hd'
        subst hd'
        simp [isArr, getField] at hok
    | bool b =>
      refine ⟨?_, ?_, ?_⟩
      · constructor
        · intro _
          exact Or.inr ⟨Json.bool b, rfl, rfl, rfl⟩
        · intro _
          simp [importData, hp, isArr, getField]
      · intro _
        simp [importData, hp, isArr, getField]
      · intro d' hd' hok
        injection hd' with hd'
        subst hd'
        simp [isArr, getField] at hok
    | num n =>
      refine ⟨?_, ?_, ?_⟩
      · constructor
        · intro _
          exact Or.inr ⟨Json.num n, rfl, rfl, rfl⟩
        · intro _
          simp [importData, hp, isArr, getField]
      · intro _
        simp [importData, hp, isArr, getField]
      · intro d' hd' hok
        injection hd' with hd'
        subst hd'
        simp [isArr, getField] at hok
    | str s =>
      refine ⟨?_, ?_, ?_⟩
      · constructor
        · intro _
          exact Or.inr ⟨Json.str s, rfl, rfl, rfl⟩
        · intro _
          simp [importData, hp, isArr, getField]
      · intro _
        simp [importData, hp, isArr, getField]
      · intro d' hd' hok
        injection hd' with hd'
        subst hd'
        simp [isArr, getField] at hok
    | arr es =>
      refine ⟨?_, ?_, ?_⟩
      · constructor
        · intro _
          exact Or.inr ⟨Json.arr es, rfl, rfl, rfl⟩
        · intro _
          simp [importData, hp, isArr, getField]
      · intro _
        simp [importData, hp, isArr, getField]
      · intro d' hd' hok
        injection hd' with hd'
        subst hd'
        simp [isArr, getField] at hok

/-- C2 witness: a document with a truthy `notes` array and truthy `settings`
writes both keys (settings merged over the defaults) and succeeds. -/
theorem C2_import_validation_witness :
    (importData
      (stringifyC (Json.obj (.cons "notes".data (.arr .nil)
        (.cons "settings".data
          (Json.obj (.cons "headerQuote".data (.str "x".data) .nil)) .nil))))
      ⟨none, none, none⟩).1 = true := by
  have h := (C2_import_validation
    (stringifyC (Json.obj (.cons "notes".data (.arr .nil)
      (.cons "settings".data
        (Json.obj (.cons "headerQuote".data (.str "x".data) .nil)) .nil))))
    ⟨none, none, none⟩).2.2
    (Json.obj (.cons "notes".data (.arr .nil)
      (.cons "settings".data
        (Json.obj (.cons "headerQuote".data (.str "x".data) .nil)) .nil)))
    (by decide) (Or.inl (by decide))
  rw [h]

/-! ## Breakdown (categoryMap / pieData) claims (C8) -/

theorem addToMap_split (m : List MapEntry) (k : String) (a : ℚ) (ty : TransactionType) :
    ((∀ e ∈ m, e.key ≠ k) ∧ addToMap m k a ty = m ++ [⟨k, a, ty⟩]) ∨
    (∃ m1 e0 m2, m = m1 ++ e0 :: m2 ∧ e0.key = k ∧ (∀ e ∈ m1, e.key ≠ k) ∧
      addToMap m k a ty = m1 ++ ⟨e0.key, e0.value + a, e0.type⟩ :: m2) := by
  induction m with
  | nil => exact Or.inl ⟨by simp, rfl⟩
  | cons e rest ih =>
    by_cases hk : e.key = k
    · right
      exact ⟨[], e, rest, rfl, hk, by simp, by simp [addToMap, hk]⟩
    · rcases ih with ⟨hall, heq⟩ | ⟨m1, e0, m2, hm, hk0, hall, heq⟩
      · left
        refine ⟨?_, by simp [addToMap, hk, heq]⟩
        intro x hx
        rcases List.mem_cons.mp hx with hx | hx
        · exact hx ▸ hk
        · exact hall x hx
      · right
        refine ⟨e :: m1, e0, m2, by rw [hm]; rfl, hk0, ?_, by simp [addToMap, hk, heq]⟩
        intro x hx
        rcases List.mem_cons.mp hx with hx | hx
        · exact hx ▸ hk
        · exact hall x hx

theorem keySum_append_single (k : String) (pre : List Transaction) (t : Transaction) :
    keySum k (pre ++ [t]) = keySum k pre + (if mkKey t = k then t.amount else 0) := by
  by_cases h : mkKey t = k <;> simp [keySum, List.filter_append, h]

theorem addToMap_inv (pre : List Transaction) (m : List MapEntry) (t : Transaction)
    (h : MapInv pre m) : MapInv (pre ++ [t]) (addToMap m (mkKey t) t.amount t.type) := by
  obtain ⟨hnd, hval, hcov⟩ := h
  rcases addToMap_split m (mkKey t) t.amount t.type with
    ⟨hall, heq⟩ | ⟨m1, e0, m2, hm, hk0, hall, heq⟩
  · -- the key is new: the entry is appended
    have hzero : keySum (mkKey t) pre = 0 := by
      have : pre.filter (fun u => mkKey u = mkKey t) = [] := by
        rw [List.filter_eq_nil_iff]
        intro u hu hk
        obtain ⟨e, he, hke⟩ := hcov u hu
        exact hall e he (hke.trans (by simpa using hk))
      simp [keySum, this]
    rw [heq]
    refine ⟨?_, ?_, ?_⟩
    · simp only [List.map_append, List.map_cons, List.map_nil]
      rw [List.nodup_append]
      refine ⟨hnd, List.nodup_singleton _, ?_⟩
      intro x hx hx1
      simp only [List.mem_singleton] at hx1
      obtain ⟨e, he, hke⟩ := List.mem_map.mp hx
      exact hall e he (by rw [hke, hx1])
    · intro e he
      rcases List.mem_append.mp he with he | he
      · obtain ⟨hv, u, hu, hku, htu⟩ := hval e he
        refine ⟨?_, u, List.mem_append_left _ hu, hku, htu⟩
        rw [keySum_append_single, if_neg (fun hc => hall e he hc.symm), hv, add_zero]
      · simp only [List.mem_singleton] at he
        subst he
        refine ⟨?_, t, List.mem_append_right _ (by simp), rfl, rfl⟩
        rw [keySum_append_single, if_pos rfl, hzero, zero_add]
    · intro u hu
      rcases List.mem_append.mp hu with hu | hu
      · obtain ⟨e, he, hke⟩ := hcov u hu
        exact ⟨e, List.mem_append_left _ he, hke⟩
      · simp only [List.mem_singleton] at hu
        exact ⟨⟨mkKey t, t.amount, t.type⟩, List.mem_append_right _ (by simp), by rw [hu]⟩
  · -- the key exists: the entry is updated in place
    have hkeys : (addToMap m (mkKey t) t.amount t.type).map (fun e => e.key) =
        m.map (fun e => e.key) := by
      rw [heq, hm]; simp
    have hne2 : ∀ e ∈ m2, e.key ≠ mkKey t := by
      intro e he hke
      have := hm ▸ hnd
      simp only [List.map_append, List.map_cons, List.nodup_append] at this
      have h2 := this.2.1
      rw [List.nodup_cons] at h2
      exact h2.1 (hk0 ▸ hke ▸ List.mem_map_of_mem (fun e => e.key) he)
    rw [heq]
    refine ⟨by rw [← heq, hkeys]; exact hnd, ?_, ?_⟩
    · intro e he
      rcases List.mem_append.mp he with he | he
      · obtain ⟨hv, u, hu, hku, htu⟩ := hval e (hm ▸ List.mem_append_left _ he)
        refine ⟨?_, u, List.mem_append_left _ hu, hku, htu⟩
        rw [keySum_append_single, if_neg (fun hc => hall e he hc.symm), hv, add_zero]
      · rcases List.mem_cons.mp he with he | he
        · subst he
          obtain ⟨hv, u, hu, hku, htu⟩ := hval e0 (hm ▸ (by simp : e0 ∈ m1 ++ e0 :: m2))
          refine ⟨?_, u, List.mem_append_left _ hu, by simpa using hku, by simpa using htu⟩
          simp only
          rw [keySum_append_single, hk0, if_pos rfl, hv, hk0]
        · obtain ⟨hv, u, hu, hku, htu⟩ :=
            hval e (hm ▸ List.mem_append_right _ (List.mem_cons_of_mem _ he))
          refine ⟨?_, u, List.mem_append_left _ hu, hku, htu⟩
          rw [keySum_append_single, if_neg (fun hc => hne2 e he hc.symm), hv, add_zero]
    · intro u hu
      rcases List.mem_append.mp hu with hu | hu
      · obtain ⟨e, he, hke⟩ := hcov u hu
        rcases List.mem_append.mp (hm ▸ he) with h1 | h1
        · exact ⟨e, List.mem_append_left _ h1, hke⟩
        · rcases List.mem_cons.mp h1 with h1 | h1
          · exact ⟨⟨e0.key, e0.value + t.amount, e0.type⟩,
              List.mem_append_right _ (by simp), by simpa [h1] using hke⟩
          · exact ⟨e, List.mem_append_right _ (List.mem_cons_of_mem _ h1), hke⟩
      · simp only [List.mem_singleton] at hu
        exact ⟨⟨e0.key, e0.value + t.amount, e0.type⟩,
          List.mem_append_right _ (by simp), by rw [hu]; exact hk0⟩

theorem categoryMapOf_inv_aux (l : List Transaction) :
    ∀ (pre : List Transaction) (m : List MapEntry), MapInv pre m →
      MapInv (pre ++ l) (l.foldl (fun m t => addToMap m (mkKey t) t.amount t.type) m) := by
  induction l with
  | nil => intro pre m h; simpa using h
  | cons t l ih =>
    intro pre m h
    have h1 := addToMap_inv pre m t h
    have h2 := ih (pre ++ [t]) _ h1
    rw [List.append_assoc] at h2
    simpa using h2

theorem categoryMapOf_inv (l : List Transaction) : MapInv l (categoryMapOf l) := by
  have h := categoryMapOf_inv_aux l [] [] ⟨by simp, by simp, by simp⟩
  simpa [categoryMapOf] using h

theorem assignColors_shape (m : List MapEntry) : ∀ ii ei : Nat,
    (assignColors m ii ei).map (fun e => (e.name, e.value, e.type)) =
      m.map (fun e => (nameOfKey e.key, e.value, e.type)) := by
  induction m with
  | nil => intro ii ei; rfl
  | cons e rest ih =>
    intro ii ei
    cases hty : e.type <;> simp [assignColors, hty, ih]

theorem assignColors_income_palette (m : List MapEntry) : ∀ ii ei : Nat,
    ((assignColors m ii ei).filter (fun e => e.type = TransactionType.income)).map
        (fun e => e.color) =
      (List.range ((m.filter (fun e => e.type = TransactionType.income)).length)).map
        (fun i => INCOME_COLORS.getD ((ii + i) % INCOME_COLORS.length) "") := by
  induction m with
  | nil => intro ii ei; rfl
  | cons e rest ih =>
    intro ii ei
    cases hty : e.type
    · simp only [assignColors, hty, List.filter_cons, decide_eq_true_eq]
      rw [if_pos trivial, if_pos trivial]
      rw [List.length_cons, List.range_succ_eq_map]
      simp only [List.map_cons, List.map_map]
      rw [ih (ii + 1) ei]
      refine congrArg₂ _ (by simp) ?_
      apply List.map_congr_left
      intro i _
      simp only [Function.comp_apply]
      congr 2
      omega
    · simp only [assignColors, hty, List.filter_cons, decide_eq_true_eq]
      rw [if_neg (by simp), if_neg (by simp)]
      exact ih ii (ei + 1)

theorem assignColors_expense_palette (m : List MapEntry) : ∀ ii ei : Nat,
    ((assignColors m ii ei).filter (fun e => e.type = TransactionType.expense)).map
        (fun e => e.color) =
      (List.range ((m.filter (fun e => e.type = TransactionType.expense)).length)).map
        (fun i => EXPENSE_COLORS.getD ((ei + i) % EXPENSE_COLORS.length) "") := by
  induction m with
  | nil => intro ii ei; rfl
  | cons e rest ih =>
    intro ii ei
    cases hty : e.type
    · simp only [assignColors, hty, List.filter_cons, decide_eq_true_eq]
      rw [if_neg (by simp), if_neg (by simp)]
      exact ih (ii + 1) ei
    · simp only [assignColors, hty, List.filter_cons, decide_eq_true_eq]
      rw [if_pos trivial, if_pos trivial]
      rw [List.length_cons, List.range_succ_eq_map]
      simp only [List.map_cons, List.map_map]
      rw [ih ii (ei + 1)]
      refine congrArg₂ _ (by simp) ?_
      apply List.map_congr_left
      intro i _
      simp only [Function.comp_apply]
      congr 2
      omega

/-- C8: the breakdown has exactly one `categoryMap` entry per distinct
`type-category` grouping key among the day's transactions, each carrying the
key's summed amount and the type that produced it; `pieData` is that entry
list (names/values/types preserved) with colors drawn from the income palette
and the expense palette in first-encounter order (indices modulo the palette
length), and is returned sorted descending by summed amount — a permutation
of the color-assignment order. -/
theorem C8_breakdown_entries (ts : List Transaction) (d : String) :
    ((categoryMapOf (dayTransactionsOf ts d)).map (fun e => e.key)).Nodup ∧
    (∀ e ∈ categoryMapOf (dayTransactionsOf ts d),
      e.value = keySum e.key (dayTransactionsOf ts d) ∧
      ∃ t ∈ dayTransactionsOf ts d, mkKey t = e.key ∧ t.type = e.type) ∧
    (∀ t ∈ dayTransactionsOf ts d,
      ∃ e ∈ categoryMapOf (dayTransactionsOf ts d), e.key = mkKey t) ∧
    ((dailyStats ts d).pieData).Perm
      (assignColors (categoryMapOf (dayTransactionsOf ts d)) 0 0) ∧
    List.Pairwise (fun a b : PieEntry => b.value ≤ a.value) (dailyStats ts d).pieData ∧
    (assignColors (categoryMapOf (dayTransactionsOf ts d)) 0 0).map
        (fun e => (e.name, e.value, e.type)) =
      (categoryMapOf (dayTransactionsOf ts d)).map
        (fun e => (nameOfKey e.key, e.value, e.type)) ∧
    ((assignColors (categoryMapOf (dayTransactionsOf ts d)) 0 0).filter
        (fun e => e.type = TransactionType.income)).map (fun e => e.color) =
      (List.range (((categoryMapOf (dayTransactionsOf ts d)).filter
        (fun e => e.type = TransactionType.income)).length)).map
        (fun i => INCOME_COLORS.getD (i % INCOME_COLORS.length) "") ∧
    ((assignColors (categoryMapOf (dayTransactionsOf ts d)) 0 0).filter
        (fun e => e.type = TransactionType.expense)).map (fun e => e.color) =
      (List.range (((categoryMapOf (dayTransactionsOf ts d)).filter
        (fun e => e.type = TransactionType.expense)).length)).map
        (fun i => EXPENSE_COLORS.getD (i % EXPENSE_COLORS.length) "") := by
  obtain ⟨hnd, hval, hcov⟩ := categoryMapOf_inv (dayTransactionsOf ts d)
  haveI : IsTotal PieEntry (fun a b => b.value ≤ a.value) :=
    ⟨fun a b => le_total b.value a.value⟩
  haveI : IsTrans PieEntry (fun a b => b.value ≤ a.value) :=
    ⟨fun _ _ _ hab hbc => le_trans hbc hab⟩
  refine ⟨hnd, hval, hcov, ?_, ?_, assignColors_shape _ 0 0, ?_, ?_⟩
  · rw [dailyStats_eq]
    exact List.perm_insertionSort _ _
  · rw [dailyStats_eq]
    exact List.sorted_insertionSort _ _
  · simpa using assignColors_income_palette (categoryMapOf (dayTransactionsOf ts d)) 0 0
  · simpa using assignColors_expense_palette (categoryMapOf (dayTransactionsOf ts d)) 0 0

/-- C8 witness: on the specification's example day there is an entry for the
`income-工资` grouping key. -/
theorem C8_breakdown_entries_witness :
    ∃ e ∈ categoryMapOf (dayTransactionsOf exampleTs "2024-01-01"),
      e.key = "income-工资" := by
  obtain ⟨e, he, hk⟩ := (C8_breakdown_entries exampleTs "2024-01-01").2.2.1
    ⟨"a", 100, .income, "工资", "", "2024-01-01", 3⟩
    (by norm_num [dayTransactionsOf, exampleTs])
  exact ⟨e, he, by rw [hk]; rfl⟩

/-! ## JSON parser / printer roundtrip -/

theorem skipWs_ws_append (pre s : List Char) (h : AllWs pre) :
    skipWs (pre ++ s) = skipWs s := by
  induction pre with
  | nil => rfl
  | cons c cs ih =>
    simp only [List.cons_append, skipWs]
    rw [if_pos (h c (List.mem_cons_self c cs))]
    exact ih (fun x hx => h x (List.mem_cons_of_mem _ hx))

theorem skipWs_cons_of_not (c : Char) (s : List Char) (h : isWs c = false) :
    skipWs (c :: s) = c :: s := by
  simp [skipWs, h]

theorem expectLit_self (lit : List Char) : ∀ r, expectLit lit (lit ++ r) = some r := by
  induction lit with
  | nil => intro r; rfl
  | cons c cs ih => intro r; simp [expectLit, ih]

theorem isDigit_toNat (c : Char) (h : c.isDigit = true) :
    48 ≤ c.toNat ∧ c.toNat ≤ 57 := by
  simp [Char.isDigit, Char.le_def] at h
  exact h

theorem digit_facts (c : Char) (h : c.isDigit = true) :
    isWs c = false ∧ c ≠ 'n' ∧ c ≠ 't' ∧ c ≠ 'f' ∧ c ≠ '"' ∧ c ≠ '-' ∧
      c ≠ '[' ∧ c ≠ '{' ∧ c ≠ ']' ∧ c ≠ '}' ∧ c ≠ ',' := by
  have hv := isDigit_toNat c h
  have hsp : ¬ (c = ' ') := by rintro rfl; exact absurd hv (by decide)
  have hnl : ¬ (c = '\n') := by rintro rfl; exact absurd hv (by decide)
  have htb : ¬ (c = '\t') := by rintro rfl; exact absurd hv (by decide)
  have hcr : ¬ (c = '\r') := by rintro rfl; exact absurd hv (by decide)
  refine ⟨by simp [isWs, hsp, hnl, htb, hcr], ?_, ?_, ?_, ?_, ?_, ?_, ?_, ?_, ?_, ?_⟩ <;>
    (rintro rfl; exact absurd hv (by decide))

theorem digChar_isDigit (d : Nat) (h : d < 10) : (digChar d).isDigit = true := by
  interval_cases d <;> decide

theorem digVal_digChar (d : Nat) (h : d < 10) : digVal (digChar d) = d := by
  interval_cases d <;> decide

theorem natDigitsRev_fuel (n : Nat) : ∀ f1 f2, n ≤ f1 → n ≤ f2 →
    natDigitsRev f1 n = natDigitsRev f2 n := by
  induction n using Nat.strong_induction_on with
  | _ n ih =>
    intro f1 f2 h1 h2
    match n, f1, f2 with
    | 0, 0, 0 => rfl
    | 0, 0, _ + 1 => rfl
    | 0, _ + 1, 0 => rfl
    | 0, _ + 1, _ + 1 => rfl
    | m + 1, g1 + 1, g2 + 1 =>
      simp only [natDigitsRev]
      rw [ih ((m + 1) / 10) (Nat.div_lt_self (Nat.succ_pos m) (by norm_num)) g1 g2
        (by omega) (by omega)]

theorem natDigitsRev_digits (f : Nat) : ∀ n c, c ∈ natDigitsRev f n → c.isDigit = true := by
  induction f with
  | zero => intro n c hc; simp [natDigitsRev] at hc
  | succ f ih =>
    intro n c hc
    match n with
    | 0 => simp [natDigitsRev] at hc
    | m + 1 =>
      simp only [natDigitsRev, List.mem_cons] at hc
      rcases hc with hc | hc
      · exact hc ▸ digChar_isDigit _ (Nat.mod_lt _ (by norm_num))
      · exact ih _ c hc

theorem natChars_digits (n : Nat) : ∀ c ∈ natChars n, c.isDigit = true := by
  intro c hc
  unfold natChars at hc
  by_cases h : n = 0
  · simp [h] at hc; subst hc; decide
  · rw [if_neg h, List.mem_reverse] at hc
    exact natDigitsRev_digits n n c hc

theorem digitsVal_append (l : List Char) (c : Char) :
    digitsVal (l ++ [c]) = 10 * digitsVal l + digVal c := by
  simp [digitsVal, List.foldl_append]

theorem digitsVal_natChars (n : Nat) : digitsVal (natChars n) = n := by
  induction n using Nat.strong_induction_on with
  | _ n ih =>
    match n with
    | 0 => decide
    | m + 1 =>
      unfold natChars
      rw [if_neg (Nat.succ_ne_zero m)]
      simp only [natDigitsRev, List.reverse_cons]
      rw [digitsVal_append]
      rw [natDigitsRev_fuel ((m + 1) / 10) m ((m + 1) / 10) (by omega) (le_refl _)]
      by_cases hz : (m + 1) / 10 = 0
      · rw [hz]
        simp only [natDigitsRev, List.reverse_nil]
        have : digitsVal [] = 0 := rfl
        rw [this, digVal_digChar _ (Nat.mod_lt _ (by norm_num))]
        omega
      · have hrec := ih ((m + 1) / 10) (Nat.div_lt_self (Nat.succ_pos m) (by norm_num))
        unfold natChars at hrec
        rw [if_neg hz] at hrec
        rw [hrec, digVal_digChar _ (Nat.mod_lt _ (by norm_num))]
        omega

theorem natDigitsRev_zero (f : Nat) : natDigitsRev f 0 = [] := by
  cases f <;> rfl

theorem natChars_ne_nil (n : Nat) : natChars n ≠ [] := by
  match n with
  | 0 => decide
  | m + 1 =>
    unfold natChars
    rw [if_neg (Nat.succ_ne_zero m)]
    simp [natDigitsRev]

theorem natDigitsRev_last (n : Nat) : ∀ f, 0 < n → n ≤ f →
    ∃ l d, natDigitsRev f n = l ++ [digChar d] ∧ d ≠ 0 ∧ d < 10 := by
  induction n using Nat.strong_induction_on with
  | _ n ih =>
    intro f hn hf
    match n, f with
    | m + 1, g + 1 =>
      simp only [natDigitsRev]
      by_cases hz : (m + 1) / 10 = 0
      · rw [hz, natDigitsRev_zero]
        refine ⟨[], (m + 1) % 10, by simp, ?_, Nat.mod_lt _ (by norm_num)⟩
        have : m + 1 < 10 := by omega
        omega
      · obtain ⟨l, d, hl, hd, hd10⟩ := ih ((m + 1) / 10)
          (Nat.div_lt_self (Nat.succ_pos m) (by norm_num)) g (Nat.pos_of_ne_zero hz)
          (by omega)
        exact ⟨digChar ((m + 1) % 10) :: l, d, by rw [hl]; rfl, hd, hd10⟩

theorem digChar_zero (d : Nat) (h : d < 10) : digChar d = '0' → d = 0 := by
  interval_cases d <;> decide

theorem natChars_leading_zero (n : Nat) (ds : List Char)
    (h : natChars n = '0' :: ds) : ds = [] := by
  by_cases hn : n = 0
  · subst hn
    have : natChars 0 = ['0'] := rfl
    rw [this] at h
    exact (List.cons.injEq _ _ _ _ ▸ h).2.symm
  · exfalso
    obtain ⟨l, d, hl, hd, hd10⟩ := natDigitsRev_last n n (Nat.pos_of_ne_zero hn) (le_refl n)
    unfold natChars at h
    rw [if_neg hn, hl, List.reverse_append] at h
    simp only [List.reverse_cons, List.reverse_nil, List.nil_append, List.cons_append,
      List.cons.injEq] at h
    exact hd (digChar_zero d hd10 h.1)

theorem takeDigits_append (ds : List Char) (hds : ∀ c ∈ ds, c.isDigit = true) :
    ∀ r, NoDigitStart r → takeDigits (ds ++ r) = (ds, r) := by
  induction ds with
  | nil =>
    intro r hr
    cases r with
    | nil => rfl
    | cons c cs =>
      unfold NoDigitStart at hr
      simp [takeDigits, hr]
  | cons d ds ih =>
    intro r hr
    simp only [List.cons_append, takeDigits]
    rw [if_pos (hds d (List.mem_cons_self d ds))]
    simp only [List.append_eq]
    rw [ih (fun c hc => hds c (List.mem_cons_of_mem _ hc)) r hr]

theorem pNat_natChars (n : Nat) (r : List Char) (hr : NoDigitStart r) :
    pNat (natChars n ++ r) = some (n, r) := by
  have htd := takeDigits_append (natChars n) (natChars_digits n) r hr
  obtain ⟨d, ds, hnc⟩ : ∃ d ds, natChars n = d :: ds := by
    cases h : natChars n with
    | nil => exact absurd h (natChars_ne_nil n)
    | cons d ds => exact ⟨d, ds, rfl⟩
  unfold pNat
  rw [hnc] at htd ⊢
  rw [htd]
  show (if (decide (d = '0') && decide (ds ≠ [])) = true then none
    else some (digitsVal (d :: ds), r)) = some (n, r)
  have hif : (decide (d = '0') && decide (ds ≠ [])) = false := by
    by_cases hd : d = '0'
    · have h0 := natChars_leading_zero n ds (hd ▸ hnc)
      simp [h0]
    · simp [hd]
  rw [hif]
  simp only [Bool.false_eq_true, if_false]
  rw [← hnc, digitsVal_natChars]

theorem hexVal_hexChar (m : Nat) (h : m < 16) : hexVal (hexChar m) = some m := by
  interval_cases m <;> decide

theorem escStr_cons (c : Char) (cs : List Char) :
    escStr (c :: cs) = escChar c ++ escStr cs := rfl

theorem pStrBody_escStr (s : List Char) : ∀ (f : Nat) (r : List Char),
    (escStr s).length + 1 ≤ f →
    pStrBody f (escStr s ++ '"' :: r) = some (s, r) := by
  induction s with
  | nil =>
    intro f r hf
    obtain ⟨g, rfl⟩ : ∃ n, f = n + 1 := ⟨f - 1, by omega⟩
    simp [escStr, pStrBody]
  | cons c cs ih =>
    intro f r hf
    rw [escStr_cons, List.length_append] at hf
    rw [escStr_cons, List.append_assoc]
    by_cases h1 : c = '"'
    · subst h1
      have hlen : (escChar '"').length = 2 := rfl
      rw [hlen] at hf
      obtain ⟨g, rfl⟩ : ∃ n, f = n + 1 := ⟨f - 1, by omega⟩
      show pStrBody (g + 1) ('\\' :: '"' :: (escStr cs ++ '"' :: r)) = _
      simp only [pStrBody, escTarget]
      rw [ih g r (by omega)]
      simp
    · by_cases h2 : c = '\\'
      · subst h2
        have hlen : (escChar '\\').length = 2 := rfl
        rw [hlen] at hf
        obtain ⟨g, rfl⟩ : ∃ n, f = n + 1 := ⟨f - 1, by omega⟩
        show pStrBody (g + 1) ('\\' :: '\\' :: (escStr cs ++ '"' :: r)) = _
        simp only [pStrBody, escTarget]
        rw [ih g r (by omega)]
        simp
      · by_cases h3 : c = '\x08'
        · subst h3
          have hlen : (escChar '\x08').length = 2 := rfl
          rw [hlen] at hf
          obtain ⟨g, rfl⟩ : ∃ n, f = n + 1 := ⟨f - 1, by omega⟩
          show pStrBody (g + 1) ('\\' :: 'b' :: (escStr cs ++ '"' :: r)) = _
          simp only [pStrBody, escTarget]
          rw [ih g r (by omega)]
          simp
        · by_cases h4 : c = '\t'
          · subst h4
            have hlen : (escChar '\t').length = 2 := rfl
            rw [hlen] at hf
            obtain ⟨g, rfl⟩ : ∃ n, f = n + 1 := ⟨f - 1, by omega⟩
            show pStrBody (g + 1) ('\\' :: 't' :: (escStr cs ++ '"' :: r)) = _
            simp only [pStrBody, escTarget]
            rw [ih g r (by omega)]
            simp
          · by_cases h5 : c = '\n'
            · subst h5
              have hlen : (escChar '\n').length = 2 := rfl
              rw [hlen] at hf
              obtain ⟨g, rfl⟩ : ∃ n, f = n + 1 := ⟨f - 1, by omega⟩
              show pStrBody (g + 1) ('\\' :: 'n' :: (escStr cs ++ '"' :: r)) = _
              simp only [pStrBody, escTarget]
              rw [ih g r (by omega)]
              simp
            · by_cases h6 : c = '\x0c'
              · subst h6
                have hlen : (escChar '\x0c').length = 2 := rfl
                rw [hlen] at hf
                obtain ⟨g, rfl⟩ : ∃ n, f = n + 1 := ⟨f - 1, by omega⟩
                show pStrBody (g + 1) ('\\' :: 'f' :: (escStr cs ++ '"' :: r)) = _
                simp only [pStrBody, escTarget]
                rw [ih g r (by omega)]
                simp
              · by_cases h7 : c = '\r'
                · subst h7
                  have hlen : (escChar '\r').length = 2 := rfl
                  rw [hlen] at hf
                  obtain ⟨g, rfl⟩ : ∃ n, f = n + 1 := ⟨f - 1, by omega⟩
                  show pStrBody (g + 1) ('\\' :: 'r' :: (escStr cs ++ '"' :: r)) = _
                  simp only [pStrBody, escTarget]
                  rw [ih g r (by omega)]
                  simp
                · by_cases h8 : c.toNat < 32
                  · have hesc : escChar c =
                        ['\\', 'u', '0', '0', hexChar (c.toNat / 16), hexChar (c.toNat % 16)] := by
                      unfold escChar
                      rw [if_neg h1, if_neg h2, if_neg h3, if_neg h4, if_neg h5, if_neg h6,
                        if_neg h7, if_pos h8]
                    rw [hesc] at hf ⊢
                    obtain ⟨g, rfl⟩ : ∃ n, f = n + 1 := ⟨f - 1, by omega⟩
                    show pStrBody (g + 1) ('\\' :: 'u' :: '0' :: '0' ::
                      hexChar (c.toNat / 16) :: hexChar (c.toNat % 16) ::
                        (escStr cs ++ '"' :: r)) = _
                    simp only [pStrBody]
                    rw [show hexVal '0' = some 0 from by decide,
                      hexVal_hexChar (c.toNat / 16) (by omega),
                      hexVal_hexChar (c.toNat % 16) (Nat.mod_lt _ (by norm_num))]
                    simp only []
                    rw [ih g r (by simp at hf; omega)]
                    have hch : c.toNat / 16 * 16 + c.toNat % 16 = c.toNat := by omega
                    simp [hch, Char.ofNat_toNat]
                  · have hesc : escChar c = [c] := by
                      unfold escChar
                      rw [if_neg h1, if_neg h2, if_neg h3, if_neg h4, if_neg h5, if_neg h6,
                        if_neg h7, if_neg h8]
                    rw [hesc] at hf ⊢
                    obtain ⟨g, rfl⟩ : ∃ n, f = n + 1 := ⟨f - 1, by omega⟩
                    show pStrBody (g + 1) (c :: (escStr cs ++ '"' :: r)) = _
                    simp only [pStrBody]
                    rw [if_neg h1, if_neg h2, if_neg (by simpa using h8)]
                    rw [ih g r (by simp at hf; omega)]
                    simp

theorem serV_shape (p : Bool) (ind : List Char) (j : Json) :
    ∃ c t, serV p ind j = c :: t ∧ isWs c = false ∧ c ≠ ']' ∧ c ≠ '}' := by
  cases j with
  | num n =>
    cases n with
    | ofNat m =>
      obtain ⟨d, ds, hnc⟩ : ∃ d ds, natChars m = d :: ds := by
        cases h : natChars m with
        | nil => exact absurd h (natChars_ne_nil m)
        | cons d ds => exact ⟨d, ds, rfl⟩
      have hd := natChars_digits m d (hnc ▸ List.mem_cons_self d ds)
      obtain ⟨hws, _, _, _, _, _, _, _, hbr, hbc, _⟩ := digit_facts d hd
      exact ⟨d, ds, by simp [serV, intChars, hnc], hws, hbr, hbc⟩
    | negSucc m => refine ⟨_, _, rfl, ?_, ?_, ?_⟩ <;> decide
  | bool b => cases b <;> (refine ⟨_, _, rfl, ?_, ?_, ?_⟩ <;> decide)
  | arr es => cases es <;> cases p <;> (refine ⟨_, _, rfl, ?_, ?_, ?_⟩ <;> decide)
  | obj fs => cases fs <;> cases p <;> (refine ⟨_, _, rfl, ?_, ?_, ?_⟩ <;> decide)
  | null => refine ⟨_, _, rfl, ?_, ?_, ?_⟩ <;> decide
  | str s => refine ⟨_, _, rfl, ?_, ?_, ?_⟩ <;> decide

theorem jfuel_pos (j : Json) : 1 ≤ jfuel j := by
  cases j <;> simp [jfuel]

theorem afuel_pos (es : JArr) : 1 ≤ afuel es := by
  cases es <;> simp [afuel]

theorem ofuel_pos (fs : JObj) : 1 ≤ ofuel fs := by
  cases fs <;> simp [ofuel]

theorem JObj.hasKey_append (xs ys : JObj) (k : List Char) :
    (JObj.append xs ys).hasKey k = (xs.hasKey k || ys.hasKey k) := by
  match xs with
  | .nil => simp [JObj.append, JObj.hasKey]
  | .cons k1 v1 rest =>
    have ih := JObj.hasKey_append rest ys k
    simp [JObj.append, JObj.hasKey, ih, Bool.or_assoc]

theorem wfO_append_right (xs ys : JObj) (h : wfO (JObj.append xs ys) = true) :
    wfO ys = true := by
  match xs with
  | .nil => exact h
  | .cons k1 v1 rest =>
    refine wfO_append_right rest ys ?_
    simp only [JObj.append, wfO, Bool.and_eq_true] at h
    exact h.2

theorem wfO_append_not_hasKey (acc : JObj) (k : List Char) (v : Json) (fs : JObj)
    (h : wfO (JObj.append acc (JObj.cons k v fs)) = true) : acc.hasKey k = false := by
  match acc with
  | .nil => rfl
  | .cons k1 v1 rest =>
    have h2 : ((!(JObj.append rest (JObj.cons k v fs)).hasKey k1 && wfV v1)
        && wfO (JObj.append rest (JObj.cons k v fs))) = true := h
    rw [Bool.and_eq_true, Bool.and_eq_true, Bool.not_eq_true'] at h2
    obtain ⟨⟨hnk, _⟩, hrest⟩ := h2
    have ih := wfO_append_not_hasKey rest k v fs hrest
    have hk1 : ¬ (k1 = k) := by
      intro hc
      rw [JObj.hasKey_append] at hnk
      simp [JObj.hasKey, hc] at hnk
    show (decide (k1 = k) || rest.hasKey k) = false
    simp [ih, hk1]

theorem upsert_not_hasKey (acc : JObj) (k : List Char) (v : Json)
    (h : acc.hasKey k = false) :
    upsert acc k v = JObj.append acc (.cons k v .nil) := by
  match acc with
  | .nil => rfl
  | .cons k1 v1 rest =>
    simp only [JObj.hasKey, Bool.or_eq_false_iff] at h
    have hk1 : ¬ (k1 = k) := by simpa using h.1
    simp [upsert, hk1, JObj.append, upsert_not_hasKey rest k v h.2]

theorem JObj.append_cons_nil (acc : JObj) (k : List Char) (v : Json) (fs : JObj) :
    JObj.append (JObj.append acc (.cons k v .nil)) fs =
      JObj.append acc (.cons k v fs) := by
  match acc with
  | .nil => rfl
  | .cons k1 v1 rest => simp [JObj.append, JObj.append_cons_nil rest k v fs]

theorem allWs_nil : AllWs [] := fun c hc => absurd hc (List.not_mem_nil c)

theorem allWs_cons (c : Char) (l : List Char) (hc : isWs c = true) (hl : AllWs l) :
    AllWs (c :: l) := by
  intro x hx
  rcases List.mem_cons.mp hx with hx | hx
  · exact hx ▸ hc
  · exact hl x hx

theorem allWs_append (l1 l2 : List Char) (h1 : AllWs l1) (h2 : AllWs l2) :
    AllWs (l1 ++ l2) := by
  intro x hx
  rcases List.mem_append.mp hx with hx | hx
  · exact h1 x hx
  · exact h2 x hx

theorem allWs_ind2 (ind : List Char) (h : AllWs ind) : AllWs (ind ++ [' ', ' ']) := by
  refine allWs_append _ _ h ?_
  intro c hc
  rcases List.mem_cons.mp hc with h1 | h1
  · exact h1 ▸ rfl
  · simp only [List.mem_singleton] at h1
    exact h1 ▸ rfl

theorem noDigit_cons (c : Char) (l : List Char) (h : c.isDigit = false) :
    NoDigitStart (c :: l) := h

theorem noDigit_nil : NoDigitStart [] := trivial

theorem pVal_succ_cons (g : Nat) (s : List Char) (c : Char) (cs : List Char)
    (h : skipWs s = c :: cs) :
    pVal (g + 1) s =
      (if c = 'n' then (expectLit ['u', 'l', 'l'] cs).map (fun r => (Json.null, r))
      else if c = 't' then (expectLit ['r', 'u', 'e'] cs).map (fun r => (Json.bool true, r))
      else if c = 'f' then (expectLit ['a', 'l', 's', 'e'] cs).map (fun r => (Json.bool false, r))
      else if c = '"' then (pStrBody (cs.length + 1) cs).map (fun p => (Json.str p.1, p.2))
      else if c = '-' then (pNat cs).map (fun p => (Json.num (-(p.1 : Int)), p.2))
      else if c.isDigit then (pNat (c :: cs)).map (fun p => (Json.num (p.1 : Int), p.2))
      else if c = '[' then
        match skipWs cs with
        | ']' :: r => some (Json.arr .nil, r)
        | _ => (pItems g cs).map (fun p => (Json.arr p.1, p.2))
      else if c = '{' then
        match skipWs cs with
        | '}' :: r => some (Json.obj .nil, r)
        | _ => pMembers g cs .nil
      else none) := by
  simp only [pVal]
  rw [h]

theorem pVal_succ_arr_nil (g : Nat) (s cs r : List Char)
    (h : skipWs s = '[' :: cs) (h2 : skipWs cs = ']' :: r) :
    pVal (g + 1) s = some (Json.arr .nil, r) := by
  rw [pVal_succ_cons g s '[' cs h]
  rw [if_neg (by decide), if_neg (by decide), if_neg (by decide), if_neg (by decide),
    if_neg (by decide), if_neg (by decide), if_pos rfl, h2]
  rfl

theorem pVal_succ_arr_items (g : Nat) (s cs r : List Char) (es : JArr)
    (h : skipWs s = '[' :: cs)
    (hne : ∀ r1, skipWs cs ≠ ']' :: r1)
    (hit : pItems g cs = some (es, r)) :
    pVal (g + 1) s = some (Json.arr es, r) := by
  rw [pVal_succ_cons g s '[' cs h]
  rw [if_neg (by decide), if_neg (by decide), if_neg (by decide), if_neg (by decide),
    if_neg (by decide), if_neg (by decide), if_pos rfl]
  split
  · rename_i r1 heq
    exact absurd heq (hne r1)
  · rw [hit]
    rfl

theorem pVal_succ_obj_nil (g : Nat) (s cs r : List Char)
    (h : skipWs s = '{' :: cs) (h2 : skipWs cs = '}' :: r) :
    pVal (g + 1) s = some (Json.obj .nil, r) := by
  rw [pVal_succ_cons g s '{' cs h]
  rw [if_neg (by decide), if_neg (by decide), if_neg (by decide), if_neg (by decide),
    if_neg (by decide), if_neg (by decide), if_neg (by decide), if_pos rfl, h2]
  rfl

theorem pVal_succ_obj_members (g : Nat) (s cs : List Char) (res : Option (Json × List Char))
    (h : skipWs s = '{' :: cs)
    (hne : ∀ r1, skipWs cs ≠ '}' :: r1)
    (hit : pMembers g cs .nil = res) :
    pVal (g + 1) s = res := by
  rw [pVal_succ_cons g s '{' cs h]
  rw [if_neg (by decide), if_neg (by decide), if_neg (by decide), if_neg (by decide),
    if_neg (by decide), if_neg (by decide), if_neg (by decide), if_pos rfl]
  split
  · rename_i r1 heq
    exact absurd heq (hne r1)
  · exact hit

theorem pItems_succ_close (g : Nat) (s R r1 : List Char) (e : Json)
    (h : pVal g s = some (e, R)) (h2 : skipWs R = ']' :: r1) :
    pItems (g + 1) s = some (JArr.cons e .nil, r1) := by
  simp only [pItems]
  rw [h]
  show (match skipWs R with
    | ',' :: r1 =>
      match pItems g r1 with
      | none => none
      | some (es, r2) => some (JArr.cons e es, r2)
    | ']' :: r1 => some (JArr.cons e .nil, r1)
    | _ => none) = some (JArr.cons e .nil, r1)
  rw [h2]
  rfl

theorem pItems_succ_comma (g : Nat) (s R r1 r2 : List Char) (e : Json) (es2 : JArr)
    (h : pVal g s = some (e, R)) (h2 : skipWs R = ',' :: r1)
    (h3 : pItems g r1 = some (es2, r2)) :
    pItems (g + 1) s = some (JArr.cons e es2, r2) := by
  simp only [pItems]
  rw [h]
  show (match skipWs R with
    | ',' :: r1 =>
      match pItems g r1 with
      | none => none
      | some (es, r2) => some (JArr.cons e es, r2)
    | ']' :: r1 => some (JArr.cons e .nil, r1)
    | _ => none) = some (JArr.cons e es2, r2)
  rw [h2]
  show (match pItems g r1 with
    | none => none
    | some (es, r2) => some (JArr.cons e es, r2)) = some (JArr.cons e es2, r2)
  rw [h3]

theorem pMembers_succ_close (g : Nat) (s cs r1 r2 r3 r4 : List Char)
    (k : List Char) (v : Json) (acc : JObj)
    (h : skipWs s = '"' :: cs)
    (hs : pStrBody (cs.length + 1) cs = some (k, r1))
    (h1 : skipWs r1 = ':' :: r2)
    (hv : pVal g r2 = some (v, r3))
    (h3 : skipWs r3 = '}' :: r4) :
    pMembers (g + 1) s acc = some (Json.obj (upsert acc k v), r4) := by
  simp only [pMembers]
  rw [h]
  show (match pStrBody (cs.length + 1) cs with
    | none => none
    | some (k, r1) =>
      match skipWs r1 with
      | ':' :: r2 =>
        match pVal g r2 with
        | none => none
        | some (v, r3) =>
          match skipWs r3 with
          | ',' :: r4 => pMembers g r4 (upsert acc k v)
          | '}' :: r4 => some (Json.obj (upsert acc k v), r4)
          | _ => none
      | _ => none) = some (Json.obj (upsert acc k v), r4)
  rw [hs]
  show (match skipWs r1 with
    | ':' :: r2 =>
      match pVal g r2 with
      | none => none
      | some (v, r3) =>
        match skipWs r3 with
        | ',' :: r4 => pMembers g r4 (upsert acc k v)
        | '}' :: r4 => some (Json.obj (upsert acc k v), r4)
        | _ => none
    | _ => none) = some (Json.obj (upsert acc k v), r4)
  rw [h1]
  show (match pVal g r2 with
    | none => none
    | some (v, r3) =>
      match skipWs r3 with
      | ',' :: r4 => pMembers g r4 (upsert acc k v)
      | '}' :: r4 => some (Json.obj (upsert acc k v), r4)
      | _ => none) = some (Json.obj (upsert acc k v), r4)
  rw [hv]
  show (match skipWs r3 with
    | ',' :: r4 => pMembers g r4 (upsert acc k v)
    | '}' :: r4 => some (Json.obj (upsert acc k v), r4)
    | _ => none) = some (Json.obj (upsert acc k v), r4)
  rw [h3]
  rfl

theorem pMembers_succ_comma (g : Nat) (s cs r1 r2 r3 r4 : List Char)
    (k : List Char) (v : Json) (acc : JObj) (res : Option (Json × List Char))
    (h : skipWs s = '"' :: cs)
    (hs : pStrBody (cs.length + 1) cs = some (k, r1))
    (h1 : skipWs r1 = ':' :: r2)
    (hv : pVal g r2 = some (v, r3))
    (h3 : skipWs r3 = ',' :: r4)
    (hrec : pMembers g r4 (upsert acc k v) = res) :
    pMembers (g + 1) s acc = res := by
  simp only [pMembers]
  rw [h]
  show (match pStrBody (cs.length + 1) cs with
    | none => none
    | some (k, r1) =>
      match skipWs r1 with
      | ':' :: r2 =>
        match pVal g r2 with
        | none => none
        | some (v, r3) =>
          match skipWs r3 with
          | ',' :: r4 => pMembers g r4 (upsert acc k v)
          | '}' :: r4 => some (Json.obj (upsert acc k v), r4)
          | _ => none
      | _ => none) = res
  rw [hs]
  show (match skipWs r1 with
    | ':' :: r2 =>
      match pVal g r2 with
      | none => none
      | some (v, r3) =>
        match skipWs r3 with
        | ',' :: r4 => pMembers g r4 (upsert acc k v)
        | '}' :: r4 => some (Json.obj (upsert acc k v), r4)
        | _ => none
    | _ => none) = res
  rw [h1]
  show (match pVal g r2 with
    | none => none
    | some (v, r3) =>
      match skipWs r3 with
      | ',' :: r4 => pMembers g r4 (upsert acc k v)
      | '}' :: r4 => some (Json.obj (upsert acc k v), r4)
      | _ => none) = res
  rw [hv]
  show (match skipWs r3 with
    | ',' :: r4 => pMembers g r4 (upsert acc k v)
    | '}' :: r4 => some (Json.obj (upsert acc k v), r4)
    | _ => none) = res
  rw [h3]
  exact hrec


/-! ## The parser-printer roundtrip, for the import/export claim (C3) -/

set_option maxHeartbeats 2000000 in
/-- Mutual roundtrip for the fuel-indexed parser against the serializer: a
well-formed value serialized at any indentation, surrounded by leading
whitespace and a non-digit-headed remainder, parses back to itself; and the
corresponding statements for item lists (with an arbitrary close string that
skips to a closing bracket) and member lists (with an arbitrary post-colon gap
and close string). -/
theorem parse_serV_round (f : Nat) :
    (∀ (j : Json) (p : Bool) (ind pre r : List Char),
      wfV j = true → jfuel j ≤ f → AllWs ind → AllWs pre → NoDigitStart r →
      pVal f (pre ++ (serV p ind j ++ r)) = some (j, r)) ∧
    (∀ (e : Json) (es : JArr) (p : Bool) (ind cl pre r : List Char),
      wfV e = true → wfA es = true → afuel (JArr.cons e es) ≤ f →
      AllWs ind → AllWs pre → NoDigitStart r →
      skipWs (cl ++ r) = ']' :: r → NoDigitStart (cl ++ r) →
      pItems f (pre ++ (serV p ind e ++ (serItems p ind es ++ (cl ++ r)))) =
        some (JArr.cons e es, r)) ∧
    (∀ (k : List Char) (v : Json) (fs : JObj) (p : Bool) (ind gpt cl pre r : List Char)
      (acc : JObj),
      wfO (JObj.append acc (JObj.cons k v fs)) = true →
      ofuel (JObj.cons k v fs) ≤ f →
      AllWs ind → AllWs gpt → AllWs pre → NoDigitStart r →
      skipWs (cl ++ r) = '}' :: r → NoDigitStart (cl ++ r) →
      pMembers f (pre ++ (serStr k ++ (':' :: (gpt ++ (serV p ind v ++
        (serMembers p ind fs ++ (cl ++ r))))))) acc =
        some (Json.obj (JObj.append acc (JObj.cons k v fs)), r)) := by
  induction f using Nat.strong_induction_on with
  | _ f IH =>
  refine ⟨?_, ?_, ?_⟩
  · -- pVal roundtrip
    intro j p ind pre r hwf hfuel hind hpre hr
    obtain ⟨g, rfl⟩ : ∃ n, f = n + 1 := ⟨f - 1, by have := jfuel_pos j; omega⟩
    cases j with
    | null =>
      have hskip : skipWs (pre ++ (serV p ind Json.null ++ r)) =
          'n' :: (['u', 'l', 'l'] ++ r) := by
        rw [skipWs_ws_append _ _ hpre]; rfl
      rw [pVal_succ_cons g _ 'n' _ hskip, if_pos rfl, expectLit_self]
      rfl
    | bool b =>
      cases b
      · have hskip : skipWs (pre ++ (serV p ind (Json.bool false) ++ r)) =
            'f' :: (['a', 'l', 's', 'e'] ++ r) := by
          rw [skipWs_ws_append _ _ hpre]; rfl
        rw [pVal_succ_cons g _ 'f' _ hskip, if_neg (by decide), if_neg (by decide),
          if_pos rfl, expectLit_self]
        rfl
      · have hskip : skipWs (pre ++ (serV p ind (Json.bool true) ++ r)) =
            't' :: (['r', 'u', 'e'] ++ r) := by
          rw [skipWs_ws_append _ _ hpre]; rfl
        rw [pVal_succ_cons g _ 't' _ hskip, if_neg (by decide), if_pos rfl,
          expectLit_self]
        rfl
    | num n =>
      cases n with
      | ofNat m =>
        obtain ⟨d, ds, hnc⟩ : ∃ d ds, natChars m = d :: ds := by
          cases h : natChars m with
          | nil => exact absurd h (natChars_ne_nil m)
          | cons d ds => exact ⟨d, ds, rfl⟩
        have hd := natChars_digits m d (hnc ▸ List.mem_cons_self d ds)
        obtain ⟨hws, hn, ht, hf2, hq, hm2, _, _, _, _, _⟩ := digit_facts d hd
        have hskip : skipWs (pre ++ (serV p ind (Json.num (Int.ofNat m)) ++ r)) =
            d :: (ds ++ r) := by
          rw [skipWs_ws_append _ _ hpre]
          rw [show serV p ind (Json.num (Int.ofNat m)) = d :: ds from by
            show intChars (Int.ofNat m) = d :: ds
            simp [intChars, hnc]]
          rw [List.cons_append, skipWs_cons_of_not _ _ hws]
        rw [pVal_succ_cons g _ d _ hskip, if_neg hn, if_neg ht, if_neg hf2,
          if_neg hq, if_neg hm2, if_pos hd]
        rw [show d :: (ds ++ r) = natChars m ++ r from by rw [hnc]; rfl]
        rw [pNat_natChars m r hr]
        rfl
      | negSucc m =>
        have hskip : skipWs (pre ++ (serV p ind (Json.num (Int.negSucc m)) ++ r)) =
            '-' :: (natChars (m + 1) ++ r) := by
          rw [skipWs_ws_append _ _ hpre]
          rw [show serV p ind (Json.num (Int.negSucc m)) ++ r =
            '-' :: (natChars (m + 1) ++ r) from rfl]
          exact skipWs_cons_of_not _ _ (by decide)
        rw [pVal_succ_cons g _ '-' _ hskip, if_neg (by decide), if_neg (by decide),
          if_neg (by decide), if_neg (by decide), if_pos rfl]
        rw [pNat_natChars (m + 1) r hr]
        rfl
    | str s =>
      have hskip : skipWs (pre ++ (serV p ind (Json.str s) ++ r)) =
          '"' :: ((escStr s ++ ['"']) ++ r) := by
        rw [skipWs_ws_append _ _ hpre]; rfl
      rw [pVal_succ_cons g _ '"' _ hskip, if_neg (by decide), if_neg (by decide),
        if_neg (by decide), if_pos rfl]
      rw [show (escStr s ++ ['"']) ++ r = escStr s ++ '"' :: r from by simp]
      rw [pStrBody_escStr s _ r (by simp [List.length_append])]
      rfl
    | arr es =>
      cases es with
      | nil =>
        have hskip : skipWs (pre ++ (serV p ind (Json.arr .nil) ++ r)) =
            '[' :: ([']'] ++ r) := by
          rw [skipWs_ws_append _ _ hpre]; rfl
        exact pVal_succ_arr_nil g _ _ r hskip rfl
      | cons e es2 =>
        have hwfe : wfV e = true := by
          have h2 : (wfV e && wfA es2) = true := hwf
          exact ((Bool.and_eq_true _ _).mp h2).1
        have hwfes2 : wfA es2 = true := by
          have h2 : (wfV e && wfA es2) = true := hwf
          exact ((Bool.and_eq_true _ _).mp h2).2
        have hfA : afuel (JArr.cons e es2) ≤ g := by
          have heq : jfuel (Json.arr (JArr.cons e es2)) =
            1 + afuel (JArr.cons e es2) := rfl
          omega
        cases p with
        | false =>
          obtain ⟨c1, t1, he1, hw1, hb1, _⟩ := serV_shape false ind e
          have h0 := (IH g (by omega)).2.1 e es2 false ind [']'] [] r hwfe hwfes2
            hfA hind allWs_nil hr rfl (noDigit_cons ']' r (by decide))
          rw [List.nil_append] at h0
          have hskip : skipWs (pre ++ (serV false ind (Json.arr (JArr.cons e es2)) ++ r)) =
              '[' :: (serV false ind e ++ (serItems false ind es2 ++ ([']'] ++ r))) := by
            rw [skipWs_ws_append _ _ hpre]
            rw [show serV false ind (Json.arr (JArr.cons e es2)) ++ r =
              '[' :: (serV false ind e ++ (serItems false ind es2 ++ ([']'] ++ r))) from by
                show (('[' :: serV false ind e) ++ serItems false ind es2 ++ [']']) ++ r = _
                simp [List.append_assoc]]
            exact skipWs_cons_of_not _ _ (by decide)
          have hne : ∀ r1, skipWs (serV false ind e ++
              (serItems false ind es2 ++ ([']'] ++ r))) ≠ ']' :: r1 := by
            intro r1 hcon
            rw [he1, List.cons_append, skipWs_cons_of_not _ _ hw1] at hcon
            injection hcon with hc1 _
            exact hb1 hc1
          exact pVal_succ_arr_items g _ _ r (JArr.cons e es2) hskip hne h0
        | true =>
          have hind2 : AllWs (ind ++ [' ', ' ']) := allWs_ind2 ind hind
          obtain ⟨c1, t1, he1, hw1, hb1, _⟩ := serV_shape true (ind ++ [' ', ' ']) e
          have hcl1 : skipWs (('\n' :: (ind ++ [']'])) ++ r) = ']' :: r := by
            rw [List.cons_append]
            rw [show skipWs ('\n' :: ((ind ++ [']']) ++ r)) =
              skipWs ((ind ++ [']']) ++ r) from by simp [skipWs, isWs]]
            rw [List.append_assoc, skipWs_ws_append _ _ hind]
            rfl
          have hcl2 : NoDigitStart (('\n' :: (ind ++ [']'])) ++ r) :=
            noDigit_cons '\n' _ (by decide)
          have hpre2 : AllWs ('\n' :: (ind ++ [' ', ' '])) :=
            allWs_cons _ _ (by decide) hind2
          have h0 := (IH g (by omega)).2.1 e es2 true (ind ++ [' ', ' '])
            ('\n' :: (ind ++ [']'])) ('\n' :: (ind ++ [' ', ' '])) r hwfe hwfes2
            hfA hind2 hpre2 hr hcl1 hcl2
          have hskip : skipWs (pre ++ (serV true ind (Json.arr (JArr.cons e es2)) ++ r)) =
              '[' :: (('\n' :: (ind ++ [' ', ' '])) ++ (serV true (ind ++ [' ', ' ']) e ++
                (serItems true (ind ++ [' ', ' ']) es2 ++
                  (('\n' :: (ind ++ [']'])) ++ r)))) := by
            rw [skipWs_ws_append _ _ hpre]
            rw [show serV true ind (Json.arr (JArr.cons e es2)) ++ r =
              '[' :: (('\n' :: (ind ++ [' ', ' '])) ++ (serV true (ind ++ [' ', ' ']) e ++
                (serItems true (ind ++ [' ', ' ']) es2 ++
                  (('\n' :: (ind ++ [']'])) ++ r)))) from by
                show (('[' :: '\n' :: (ind ++ [' ', ' '])) ++
                  serV true (ind ++ [' ', ' ']) e ++
                  serItems true (ind ++ [' ', ' ']) es2 ++ ('\n' :: ind) ++ [']']) ++ r = _
                simp [List.append_assoc]]
            exact skipWs_cons_of_not _ _ (by decide)
          have hne : ∀ r1, skipWs (('\n' :: (ind ++ [' ', ' '])) ++
              (serV true (ind ++ [' ', ' ']) e ++
                (serItems true (ind ++ [' ', ' ']) es2 ++
                  (('\n' :: (ind ++ [']'])) ++ r)))) ≠ ']' :: r1 := by
            intro r1 hcon
            rw [skipWs_ws_append _ _ hpre2, he1, List.cons_append,
              skipWs_cons_of_not _ _ hw1] at hcon
            injection hcon with hc1 _
            exact hb1 hc1
          exact pVal_succ_arr_items g _ _ r (JArr.cons e es2) hskip hne h0
    | obj fs =>
      cases fs with
      | nil =>
        have hskip : skipWs (pre ++ (serV p ind (Json.obj .nil) ++ r)) =
            '{' :: (['}'] ++ r) := by
          rw [skipWs_ws_append _ _ hpre]; rfl
        exact pVal_succ_obj_nil g _ _ r hskip rfl
      | cons k v fs2 =>
        have hwfO : wfO (JObj.append JObj.nil (JObj.cons k v fs2)) = true := hwf
        have hfO : ofuel (JObj.cons k v fs2) ≤ g := by
          have heq : jfuel (Json.obj (JObj.cons k v fs2)) =
            1 + ofuel (JObj.cons k v fs2) := rfl
          omega
        cases p with
        | false =>
          have h0 := (IH g (by omega)).2.2 k v fs2 false ind [] ['}'] [] r JObj.nil
            hwfO hfO hind allWs_nil allWs_nil hr rfl (noDigit_cons '}' r (by decide))
          rw [List.nil_append] at h0
          have hskip : skipWs (pre ++ (serV false ind (Json.obj (JObj.cons k v fs2)) ++ r)) =
              '{' :: (serStr k ++ (':' :: ([] ++ (serV false ind v ++
                (serMembers false ind fs2 ++ (['}'] ++ r)))))) := by
            rw [skipWs_ws_append _ _ hpre]
            rw [show serV false ind (Json.obj (JObj.cons k v fs2)) ++ r =
              '{' :: (serStr k ++ (':' :: ([] ++ (serV false ind v ++
                (serMembers false ind fs2 ++ (['}'] ++ r)))))) from by
                show (('{' :: serStr k) ++ (':' :: serV false ind v) ++
                  serMembers false ind fs2 ++ ['}']) ++ r = _
                simp [List.append_assoc]]
            exact skipWs_cons_of_not _ _ (by decide)
          have hne : ∀ r1, skipWs (serStr k ++ (':' :: ([] ++ (serV false ind v ++
              (serMembers false ind fs2 ++ (['}'] ++ r)))))) ≠ '}' :: r1 := by
            intro r1 hcon
            rw [show serStr k ++ (':' :: ([] ++ (serV false ind v ++
              (serMembers false ind fs2 ++ (['}'] ++ r))))) =
              '"' :: ((escStr k ++ ['"']) ++ (':' :: ([] ++ (serV false ind v ++
                (serMembers false ind fs2 ++ (['}'] ++ r)))))) from by
                show ('"' :: (escStr k ++ ['"'])) ++ _ = _
                simp [List.append_assoc], skipWs_cons_of_not _ _ (by decide)] at hcon
            exact absurd (List.head_eq_of_cons_eq hcon) (by decide)
          exact pVal_succ_obj_members g _ _ _ hskip hne h0
        | true =>
          have hind2 : AllWs (ind ++ [' ', ' ']) := allWs_ind2 ind hind
          have hcl1 : skipWs (('\n' :: (ind ++ ['}'])) ++ r) = '}' :: r := by
            rw [List.cons_append]
            rw [show skipWs ('\n' :: ((ind ++ ['}']) ++ r)) =
              skipWs ((ind ++ ['}']) ++ r) from by simp [skipWs, isWs]]
            rw [List.append_assoc, skipWs_ws_append _ _ hind]
            rfl
          have hcl2 : NoDigitStart (('\n' :: (ind ++ ['}'])) ++ r) :=
            noDigit_cons '\n' _ (by decide)
          have hpre2 : AllWs ('\n' :: (ind ++ [' ', ' '])) :=
            allWs_cons _ _ (by decide) hind2
          have h0 := (IH g (by omega)).2.2 k v fs2 true (ind ++ [' ', ' ']) [' ']
            ('\n' :: (ind ++ ['}'])) ('\n' :: (ind ++ [' ', ' '])) r JObj.nil
            hwfO hfO hind2 (by intro c hc; simp only [List.mem_singleton] at hc
                               exact hc ▸ rfl)
            hpre2 hr hcl1 hcl2
          have hskip : skipWs (pre ++ (serV true ind (Json.obj (JObj.cons k v fs2)) ++ r)) =
              '{' :: (('\n' :: (ind ++ [' ', ' '])) ++ (serStr k ++ (':' :: ([' '] ++
                (serV true (ind ++ [' ', ' ']) v ++
                  (serMembers true (ind ++ [' ', ' ']) fs2 ++
                    (('\n' :: (ind ++ ['}'])) ++ r))))))) := by
            rw [skipWs_ws_append _ _ hpre]
            rw [show serV true ind (Json.obj (JObj.cons k v fs2)) ++ r =
              '{' :: (('\n' :: (ind ++ [' ', ' '])) ++ (serStr k ++ (':' :: ([' '] ++
                (serV true (ind ++ [' ', ' ']) v ++
                  (serMembers true (ind ++ [' ', ' ']) fs2 ++
                    (('\n' :: (ind ++ ['}'])) ++ r))))))) from by
                show (('{' :: '\n' :: (ind ++ [' ', ' '])) ++ serStr k ++
                  (':' :: ' ' :: serV true (ind ++ [' ', ' ']) v) ++
                  serMembers true (ind ++ [' ', ' ']) fs2 ++ ('\n' :: ind) ++ ['}']) ++ r = _
                simp [serStr, List.append_assoc]]
            exact skipWs_cons_of_not _ _ (by decide)
          have hne : ∀ r1, skipWs (('\n' :: (ind ++ [' ', ' '])) ++ (serStr k ++
              (':' :: ([' '] ++ (serV true (ind ++ [' ', ' ']) v ++
                (serMembers true (ind ++ [' ', ' ']) fs2 ++
                  (('\n' :: (ind ++ ['}'])) ++ r))))))) ≠ '}' :: r1 := by
            intro r1 hcon
            rw [skipWs_ws_append _ _ hpre2] at hcon
            rw [show serStr k ++ (':' :: ([' '] ++ (serV true (ind ++ [' ', ' ']) v ++
              (serMembers true (ind ++ [' ', ' ']) fs2 ++
                (('\n' :: (ind ++ ['}'])) ++ r))))) =
              '"' :: ((escStr k ++ ['"']) ++ (':' :: ([' '] ++
                (serV true (ind ++ [' ', ' ']) v ++
                  (serMembers true (ind ++ [' ', ' ']) fs2 ++
                    (('\n' :: (ind ++ ['}'])) ++ r)))))) from by
                show ('"' :: (escStr k ++ ['"'])) ++ _ = _
                simp [List.append_assoc], skipWs_cons_of_not _ _ (by decide)] at hcon
            exact absurd (List.head_eq_of_cons_eq hcon) (by decide)
          exact pVal_succ_obj_members g _ _ _ hskip hne h0
  · -- pItems roundtrip
    intro e es p ind cl pre r hwfe hwfes hfuel hind hpre hr hcl1 hcl2
    obtain ⟨g, rfl⟩ : ∃ n, f = n + 1 := ⟨f - 1, by
      have := afuel_pos (JArr.cons e es); omega⟩
    have hje : jfuel e ≤ g := by
      have heq : afuel (JArr.cons e es) = 1 + max (jfuel e) (afuel es) := rfl
      have h1 := le_max_left (jfuel e) (afuel es)
      omega
    cases es with
    | nil =>
      have hv := (IH g (by omega)).1 e p ind pre (cl ++ r) hwfe hje hind hpre hcl2
      exact pItems_succ_close g _ (cl ++ r) r e hv hcl1
    | cons e2 es3 =>
      have hwfe2 : wfV e2 = true := by
        have h2 : (wfV e2 && wfA es3) = true := hwfes
        exact ((Bool.and_eq_true _ _).mp h2).1
      have hwfes3 : wfA es3 = true := by
        have h2 : (wfV e2 && wfA es3) = true := hwfes
        exact ((Bool.and_eq_true _ _).mp h2).2
      have hfA : afuel (JArr.cons e2 es3) ≤ g := by
        have heq : afuel (JArr.cons e (JArr.cons e2 es3)) =
          1 + max (jfuel e) (afuel (JArr.cons e2 es3)) := rfl
        have h1 := le_max_right (jfuel e) (afuel (JArr.cons e2 es3))
        omega
      cases p with
      | false =>
        have hnds : NoDigitStart (serItems false ind (JArr.cons e2 es3) ++ (cl ++ r)) :=
          noDigit_cons ',' _ (by decide)
        have hv := (IH g (by omega)).1 e false ind pre
          (serItems false ind (JArr.cons e2 es3) ++ (cl ++ r)) hwfe hje hind hpre hnds
        have hrec := (IH g (by omega)).2.1 e2 es3 false ind cl [] r hwfe2 hwfes3
          hfA hind allWs_nil hr hcl1 hcl2
        rw [List.nil_append] at hrec
        have h2 : skipWs (serItems false ind (JArr.cons e2 es3) ++ (cl ++ r)) =
            ',' :: (serV false ind e2 ++ (serItems false ind es3 ++ (cl ++ r))) := by
          rw [show serItems false ind (JArr.cons e2 es3) ++ (cl ++ r) =
            ',' :: (serV false ind e2 ++ (serItems false ind es3 ++ (cl ++ r))) from by
              show ((',' :: serV false ind e2) ++ serItems false ind es3) ++ (cl ++ r) = _
              simp [List.append_assoc]]
          exact skipWs_cons_of_not _ _ (by decide)
        exact pItems_succ_comma g _ _ _ r e (JArr.cons e2 es3) hv h2 hrec
      | true =>
        have hpre3 : AllWs ('\n' :: ind) := allWs_cons _ _ (by decide) hind
        have hnds : NoDigitStart (serItems true ind (JArr.cons e2 es3) ++ (cl ++ r)) :=
          noDigit_cons ',' _ (by decide)
        have hv := (IH g (by omega)).1 e true ind pre
          (serItems true ind (JArr.cons e2 es3) ++ (cl ++ r)) hwfe hje hind hpre hnds
        have hrec := (IH g (by omega)).2.1 e2 es3 true ind cl ('\n' :: ind) r hwfe2
          hwfes3 hfA hind hpre3 hr hcl1 hcl2
        have h2 : skipWs (serItems true ind (JArr.cons e2 es3) ++ (cl ++ r)) =
            ',' :: (('\n' :: ind) ++ (serV true ind e2 ++
              (serItems true ind es3 ++ (cl ++ r)))) := by
          rw [show serItems true ind (JArr.cons e2 es3) ++ (cl ++ r) =
            ',' :: (('\n' :: ind) ++ (serV true ind e2 ++
              (serItems true ind es3 ++ (cl ++ r)))) from by
              show ((',' :: '\n' :: ind) ++ serV true ind e2 ++
                serItems true ind es3) ++ (cl ++ r) = _
              simp [List.append_assoc]]
          exact skipWs_cons_of_not _ _ (by decide)
        exact pItems_succ_comma g _ _ _ r e (JArr.cons e2 es3) hv h2 hrec
  · -- pMembers roundtrip
    intro k v fs p ind gpt cl pre r acc hwfO hfuel hind hgpt hpre hr hcl1 hcl2
    obtain ⟨g, rfl⟩ : ∃ n, f = n + 1 := ⟨f - 1, by
      have := ofuel_pos (JObj.cons k v fs); omega⟩
    have hjv : jfuel v ≤ g := by
      have heq : ofuel (JObj.cons k v fs) = 1 + max (jfuel v) (ofuel fs) := rfl
      have h1 := le_max_left (jfuel v) (ofuel fs)
      omega
    have hwfCons : wfO (JObj.cons k v fs) = true := wfO_append_right acc _ hwfO
    have hwfv : wfV v = true := by
      have h2 : ((!fs.hasKey k && wfV v) && wfO fs) = true := hwfCons
      exact (((Bool.and_eq_true _ _).mp ((Bool.and_eq_true _ _).mp h2).1)).2
    have hwffs : wfO fs = true := by
      have h2 : ((!fs.hasKey k && wfV v) && wfO fs) = true := hwfCons
      exact ((Bool.and_eq_true _ _).mp h2).2
    have hnacc : acc.hasKey k = false := wfO_append_not_hasKey acc k v fs hwfO
    have hup : upsert acc k v = JObj.append acc (.cons k v .nil) :=
      upsert_not_hasKey acc k v hnacc
    -- the input starts with the quoted key
    have hskip : skipWs (pre ++ (serStr k ++ (':' :: (gpt ++ (serV p ind v ++
        (serMembers p ind fs ++ (cl ++ r))))))) =
        '"' :: ((escStr k ++ ['"']) ++ (':' :: (gpt ++ (serV p ind v ++
          (serMembers p ind fs ++ (cl ++ r)))))) := by
      rw [skipWs_ws_append _ _ hpre]
      rw [show serStr k ++ (':' :: (gpt ++ (serV p ind v ++
        (serMembers p ind fs ++ (cl ++ r))))) =
        '"' :: ((escStr k ++ ['"']) ++ (':' :: (gpt ++ (serV p ind v ++
          (serMembers p ind fs ++ (cl ++ r)))))) from by
          show ('"' :: (escStr k ++ ['"'])) ++ _ = _
          simp [List.append_assoc]]
      exact skipWs_cons_of_not _ _ (by decide)
    have hstr : pStrBody (((escStr k ++ ['"']) ++ (':' :: (gpt ++ (serV p ind v ++
        (serMembers p ind fs ++ (cl ++ r)))))).length + 1)
        ((escStr k ++ ['"']) ++ (':' :: (gpt ++ (serV p ind v ++
          (serMembers p ind fs ++ (cl ++ r)))))) =
        some (k, ':' :: (gpt ++ (serV p ind v ++
          (serMembers p ind fs ++ (cl ++ r))))) := by
      rw [show (escStr k ++ ['"']) ++ (':' :: (gpt ++ (serV p ind v ++
        (serMembers p ind fs ++ (cl ++ r))))) =
        escStr k ++ '"' :: (':' :: (gpt ++ (serV p ind v ++
          (serMembers p ind fs ++ (cl ++ r))))) from by simp]
      exact pStrBody_escStr k _ _ (by simp [List.length_append])
    have hcolon : skipWs (':' :: (gpt ++ (serV p ind v ++
        (serMembers p ind fs ++ (cl ++ r))))) =
        ':' :: (gpt ++ (serV p ind v ++ (serMembers p ind fs ++ (cl ++ r)))) :=
      skipWs_cons_of_not _ _ (by decide)
    cases fs with
    | nil =>
      have hv := (IH g (by omega)).1 v p ind gpt
        (serMembers p ind JObj.nil ++ (cl ++ r)) hwfv hjv hind hgpt hcl2
      have h3 : skipWs (serMembers p ind JObj.nil ++ (cl ++ r)) = '}' :: r := hcl1
      have := pMembers_succ_close g _ _ _ _ _ _ k v acc hskip hstr hcolon hv h3
      rw [this, hup]
    | cons k2 v2 fs3 =>
      have hfO3 : ofuel (JObj.cons k2 v2 fs3) ≤ g := by
        have heq : ofuel (JObj.cons k v (JObj.cons k2 v2 fs3)) =
          1 + max (jfuel v) (ofuel (JObj.cons k2 v2 fs3)) := rfl
        have h1 := le_max_right (jfuel v) (ofuel (JObj.cons k2 v2 fs3))
        omega
      have hwfO3 : wfO (JObj.append (upsert acc k v)
          (JObj.cons k2 v2 fs3)) = true := by
        rw [hup, JObj.append_cons_nil]
        exact hwfO
      cases p with
      | false =>
        have hnds : NoDigitStart (serMembers false ind (JObj.cons k2 v2 fs3) ++
            (cl ++ r)) := noDigit_cons ',' _ (by decide)
        have hv := (IH g (by omega)).1 v false ind gpt
          (serMembers false ind (JObj.cons k2 v2 fs3) ++ (cl ++ r)) hwfv hjv hind
          hgpt hnds
        have hrec := (IH g (by omega)).2.2 k2 v2 fs3 false ind [] cl [] r
          (upsert acc k v) hwfO3 hfO3 hind allWs_nil allWs_nil hr hcl1 hcl2
        rw [List.nil_append] at hrec
        have h3 : skipWs (serMembers false ind (JObj.cons k2 v2 fs3) ++ (cl ++ r)) =
            ',' :: (serStr k2 ++ (':' :: ([] ++ (serV false ind v2 ++
              (serMembers false ind fs3 ++ (cl ++ r)))))) := by
          rw [show serMembers false ind (JObj.cons k2 v2 fs3) ++ (cl ++ r) =
            ',' :: (serStr k2 ++ (':' :: ([] ++ (serV false ind v2 ++
              (serMembers false ind fs3 ++ (cl ++ r)))))) from by
              show ((',' :: serStr k2) ++ (':' :: serV false ind v2) ++
                serMembers false ind fs3) ++ (cl ++ r) = _
              simp [List.append_assoc]]
          exact skipWs_cons_of_not _ _ (by decide)
        have := pMembers_succ_comma g _ _ _ _ _ _ k v acc _ hskip hstr hcolon hv h3 hrec
        rw [this, hup, JObj.append_cons_nil]
      | true =>
        have hpre3 : AllWs ('\n' :: ind) := allWs_cons _ _ (by decide) hind
        have hgpt2 : AllWs ([' '] : List Char) := by
          intro c hc
          simp only [List.mem_singleton] at hc
          exact hc ▸ rfl
        have hnds : NoDigitStart (serMembers true ind (JObj.cons k2 v2 fs3) ++
            (cl ++ r)) := noDigit_cons ',' _ (by decide)
        have hv := (IH g (by omega)).1 v true ind gpt
          (serMembers true ind (JObj.cons k2 v2 fs3) ++ (cl ++ r)) hwfv hjv hind
          hgpt hnds
        have hrec := (IH g (by omega)).2.2 k2 v2 fs3 true ind [' '] cl ('\n' :: ind) r
          (upsert acc k v) hwfO3 hfO3 hind hgpt2 hpre3 hr hcl1 hcl2
        have h3 : skipWs (serMembers true ind (JObj.cons k2 v2 fs3) ++ (cl ++ r)) =
            ',' :: (('\n' :: ind) ++ (serStr k2 ++ (':' :: ([' '] ++
              (serV true ind v2 ++ (serMembers true ind fs3 ++ (cl ++ r))))))) := by
          rw [show serMembers true ind (JObj.cons k2 v2 fs3) ++ (cl ++ r) =
            ',' :: (('\n' :: ind) ++ (serStr k2 ++ (':' :: ([' '] ++
              (serV true ind v2 ++ (serMembers true ind fs3 ++ (cl ++ r))))))) from by
              show ((',' :: '\n' :: ind) ++ serStr k2 ++
                (':' :: ' ' :: serV true ind v2) ++
                serMembers true ind fs3) ++ (cl ++ r) = _
              simp [serStr, List.append_assoc]]
          exact skipWs_cons_of_not _ _ (by decide)
        have := pMembers_succ_comma g _ _ _ _ _ _ k v acc _ hskip hstr hcolon hv h3 hrec
        rw [this, hup, JObj.append_cons_nil]

/- Fuel bounds: the fuel measure of a value is at most the length of its
serialization plus one, so `parseJson`, which allots `length + 1` fuel,
never runs out on serializer output. -/
mutual
theorem jfuel_le_serV (p : Bool) (ind : List Char) (j : Json) :
    jfuel j ≤ (serV p ind j).length + 1 := by
  cases j with
  | null => simp [jfuel, serV]
  | bool b => cases b <;> simp [jfuel, serV]
  | num n => simp [jfuel, serV]
  | str s => simp [jfuel, serV]
  | arr es =>
    cases es with
    | nil => simp [jfuel, afuel, serV]
    | cons e es2 =>
      cases p with
      | false =>
        have h1 := jfuel_le_serV false ind e
        have h2 := afuel_le_serItems false ind es2
        simp only [jfuel, afuel, serV, List.length_append, List.length_cons,
          Bool.false_eq_true, if_false]
        omega
      | true =>
        have h1 := jfuel_le_serV true (ind ++ [' ', ' ']) e
        have h2 := afuel_le_serItems true (ind ++ [' ', ' ']) es2
        simp only [jfuel, afuel, serV, List.length_append, List.length_cons,
          if_true]
        omega
  | obj fs =>
    cases fs with
    | nil => simp [jfuel, ofuel, serV]
    | cons k v fs2 =>
      cases p with
      | false =>
        have h1 := jfuel_le_serV false ind v
        have h2 := ofuel_le_serMembers false ind fs2
        simp only [jfuel, ofuel, serV, List.length_append, List.length_cons,
          Bool.false_eq_true, if_false]
        omega
      | true =>
        have h1 := jfuel_le_serV true (ind ++ [' ', ' ']) v
        have h2 := ofuel_le_serMembers true (ind ++ [' ', ' ']) fs2
        simp only [jfuel, ofuel, serV, List.length_append, List.length_cons,
          if_true]
        omega

theorem afuel_le_serItems (p : Bool) (ind : List Char) (es : JArr) :
    afuel es ≤ (serItems p ind es).length + 1 := by
  cases es with
  | nil => simp [afuel, serItems]
  | cons e es2 =>
    cases p with
    | false =>
      have h1 := jfuel_le_serV false ind e
      have h2 := afuel_le_serItems false ind es2
      simp only [afuel, serItems, List.length_append, List.length_cons,
        Bool.false_eq_true, if_false]
      omega
    | true =>
      have h1 := jfuel_le_serV true ind e
      have h2 := afuel_le_serItems true ind es2
      simp only [afuel, serItems, List.length_append, List.length_cons, if_true]
      omega

theorem ofuel_le_serMembers (p : Bool) (ind : List Char) (fs : JObj) :
    ofuel fs ≤ (serMembers p ind fs).length + 1 := by
  cases fs with
  | nil => simp [ofuel, serMembers]
  | cons k v fs2 =>
    cases p with
    | false =>
      have h1 := jfuel_le_serV false ind v
      have h2 := ofuel_le_serMembers false ind fs2
      simp only [ofuel, serMembers, List.length_append, List.length_cons,
        Bool.false_eq_true, if_false]
      omega
    | true =>
      have h1 := jfuel_le_serV true ind v
      have h2 := ofuel_le_serMembers true ind fs2
      simp only [ofuel, serMembers, List.length_append, List.length_cons, if_true]
      omega
end

/-- Parsing a pretty-printed well-formed value recovers the value. -/
theorem parseJson_stringifyP (j : Json) (h : wfV j = true) :
    parseJson (stringifyP j) = some j := by
  have h0 := (parse_serV_round ((stringifyP j).length + 1)).1 j true [] [] [] h
    (jfuel_le_serV true [] j) allWs_nil allWs_nil noDigit_nil
  rw [List.nil_append, List.append_nil] at h0
  show (match pVal ((stringifyP j).length + 1) (stringifyP j) with
    | some (j, r) => if skipWs r = [] then some j else none
    | none => none) = some j
  rw [show (stringifyP j : List Char) = serV true [] j from rfl] at h0 ⊢
  rw [h0]
  rfl

/-- C3 (corrected): the spec claims `import(export())` leaves all three stored
entities byte-equivalent for every stored state, but importing always writes
the exported entities back, so e.g. the empty store gains populated keys
(`C3_counterexample`).  Amended: when each of the three keys is present and
stores a canonical serialization — notes and transactions canonical JSON
arrays, settings a canonical JSON object that is a fixed point of the
defaults merge — `exportData` succeeds and `importData` of its output reports
success and leaves the store byte-identical. -/
theorem C3_export_import_canonical (st : Store) (dateStr sn stt ss : List Char)
    (an atr : JArr) (fsj : JObj)
    (hn : st.notes = some sn)
    (hpn : parseJson sn = some (Json.arr an))
    (hsn : stringifyC (Json.arr an) = sn)
    (hwn : wfV (Json.arr an) = true)
    (ht : st.transactions = some stt)
    (hpt : parseJson stt = some (Json.arr atr))
    (hst2 : stringifyC (Json.arr atr) = stt)
    (hwt : wfV (Json.arr atr) = true)
    (hs : st.settings = some ss)
    (hps : parseJson ss = some (Json.obj fsj))
    (hms : mergedSettings (Json.obj fsj) = Json.obj fsj)
    (hss : stringifyC (Json.obj fsj) = ss)
    (hws : wfV (Json.obj fsj) = true) :
    ∃ out, exportData st dateStr = .ok out ∧ importData out st = (true, st) := by
  have hsnne : sn ≠ [] := by
    obtain ⟨c1, t1, he1, -, -, -⟩ := serV_shape false [] (Json.arr an)
    rw [← hsn]
    simp [stringifyC, he1]
  have hstne : stt ≠ [] := by
    obtain ⟨c1, t1, he1, -, -, -⟩ := serV_shape false [] (Json.arr atr)
    rw [← hst2]
    simp [stringifyC, he1]
  have hssne : ss ≠ [] := by
    obtain ⟨c1, t1, he1, -, -, -⟩ := serV_shape false [] (Json.obj fsj)
    rw [← hss]
    simp [stringifyC, he1]
  have e1 : readEntityRaw st.notes = .ok (Json.arr an) := by
    rw [hn]
    simp [readEntityRaw, hsnne, hpn]
  have e2 : readEntityRaw st.transactions = .ok (Json.arr atr) := by
    rw [ht]
    simp [readEntityRaw, hstne, hpt]
  have e3 : exportSettings st = Json.obj fsj := by
    unfold exportSettings
    rw [hs]
    simp [hssne, hps, hms]
  have hexp : exportData st dateStr = .ok (stringifyP (Json.obj
      (.cons "notes".data (Json.arr an)
        (.cons "transactions".data (Json.arr atr)
          (.cons "settings".data (Json.obj fsj)
            (.cons "exportDate".data (Json.str dateStr)
              (.cons "version".data (Json.str "1.0".data) .nil))))))) := by
    unfold exportData
    rw [e1, e2, e3]
    rfl
  have hwfdata : wfV (Json.obj
      (.cons "notes".data (Json.arr an)
        (.cons "transactions".data (Json.arr atr)
          (.cons "settings".data (Json.obj fsj)
            (.cons "exportDate".data (Json.str dateStr)
              (.cons "version".data (Json.str "1.0".data) .nil)))))) = true := by
    show wfO _ = true
    simp [wfO, JObj.hasKey, hwn, hwt, hws, wfV]
    exact ⟨hwn, hwt, hws⟩
  have hparse := parseJson_stringifyP _ hwfdata
  have himp : importData (stringifyP (Json.obj
      (.cons "notes".data (Json.arr an)
        (.cons "transactions".data (Json.arr atr)
          (.cons "settings".data (Json.obj fsj)
            (.cons "exportDate".data (Json.str dateStr)
              (.cons "version".data (Json.str "1.0".data) .nil))))))) st =
      (true, st) := by
    obtain ⟨o1, o2, o3⟩ := st
    simp only at hn ht hs
    subst hn
    subst ht
    subst hs
    simp [importData, hparse, getField, JObj.lookup, isArr, truthy, hsn, hst2, hms, hss]
  exact ⟨_, hexp, himp⟩

set_option maxRecDepth 10000 in
theorem C3_export_import_canonical_witness :
    ∃ out, exportData ⟨some (stringifyC (Json.arr .nil)), some (stringifyC (Json.arr .nil)),
        some (stringifyC defaultSettings)⟩ ['d'] = .ok out ∧
      importData out ⟨some (stringifyC (Json.arr .nil)), some (stringifyC (Json.arr .nil)),
        some (stringifyC defaultSettings)⟩ =
        (true, ⟨some (stringifyC (Json.arr .nil)), some (stringifyC (Json.arr .nil)),
          some (stringifyC defaultSettings)⟩) :=
  C3_export_import_canonical _ ['d'] _ _ _ JArr.nil JArr.nil defaultSettingsFields
    rfl (by decide) rfl (by decide)
    rfl (by decide) rfl (by decide)
    rfl (by decide) (by decide) rfl (by decide)

set_option maxRecDepth 10000 in
/-- C3 counterexample: exporting the empty store succeeds, yet importing the
export back reports success and writes a notes entry, so the notes key is not
byte-equivalent to its (absent) contents before the round-trip. -/
theorem C3_counterexample :
    exportData ⟨none, none, none⟩ ['d'] =
        .ok ((exportData ⟨none, none, none⟩ ['d']).toOption.getD []) ∧
      (importData ((exportData ⟨none, none, none⟩ ['d']).toOption.getD [])
        ⟨none, none, none⟩).1 = true ∧
      (importData ((exportData ⟨none, none, none⟩ ['d']).toOption.getD [])
        ⟨none, none, none⟩).2.notes ≠ (⟨none, none, none⟩ : Store).notes :=
  ⟨rfl, by decide, by decide⟩


end MonoNote
